import Mathlib

/-!
# image-enhancer: the interactive menus and the equalisation pipeline of `main.cpp`

The development embeds `src/image-enhancer/main.cpp`.

* The four menu functions `choose_image`, `choose_bins`, `choose_memory` and
  `choose_cumulation` read whitespace-delimited tokens from `std::cin`.  The
  standard input is a list of tokens.  At the end of the input a read
  `std::cin >> choice` fails and leaves `choice` unchanged.  In `choose_bins`,
  `choose_memory` and `choose_cumulation` the value left in `choice` is the
  empty string or the token the same test has just rejected, so the
  `while (loop)` never exits and the function returns `none`.  In
  `choose_image` the token left in `choice` can be read a second time in
  another role (a file name as a menu choice, a menu choice as a file name) and
  be accepted; its loop is embedded pass by pass.
* `std::string` values are lists of characters.  The only byte the code looks
  for is `'.'` and the only strings it compares with are ASCII, so characters
  and bytes agree for every operation modelled here.
-/

namespace ImageEnhancer

/-! ## `std::stoi` -/

/-- The C `isspace` test of the "C" locale, used by `strtol` to skip leading blanks. -/
def isspace (c : Char) : Bool :=
  c = ' ' || c = '\t' || c = '\n' || c = '\x0b' || c = '\x0c' || c = '\r'

/-- Value of a run of decimal digits, most significant first. -/
def digits_value (ds : List Char) : Nat :=
  ds.foldl (fun acc c => 10 * acc + (c.toNat - 48)) 0

/-- `std::stoi(str)` with the default base 10: skip leading white space, take an
optional sign, then the longest run of decimal digits; anything after it is
ignored.  `none` stands for a thrown exception: `std::invalid_argument` when
there is no digit, `std::out_of_range` when the value does not fit an `int`. -/
def stoi (str : String) : Option Int :=
  let cs := str.data.dropWhile isspace
  let signed : Bool × List Char :=
    match cs with
    | '-' :: r => (true, r)
    | '+' :: r => (false, r)
    | r => (false, r)
  let ds := signed.2.takeWhile Char.isDigit
  if ds = [] then none
  else
    let v : Int := if signed.1 then -(digits_value ds : Int) else (digits_value ds : Int)
    if v < -2147483648 ∨ 2147483647 < v then none else some v

/-! ## `choose_bins` (main.cpp:127-162) -/

/-- Integer part of the binary logarithm by repeated halving; `fuel` bounds the
number of halvings. -/
def log2_loop : Nat → Nat → Nat
  | 0, _ => 0
  | fuel + 1, n => if n < 2 then 0 else log2_loop fuel (n / 2) + 1

/-- Integer part of the binary logarithm of a positive number.  It is the value
of `int index = std::log2(i)` on main.cpp:140: `i` is a power of two there, on
which `std::log2` is exact. -/
def int_log2 (i : Nat) : Nat := log2_loop i i

/-- The `for (int i = 1; i <= 256; i *= 2)` loop of main.cpp:139-142: one menu line
`(index + 1, i)` per iteration, where `index = std::log2(i)`.  `fuel` bounds the
number of iterations; the loop body runs nine times. -/
def bins_menu_loop : Nat → Nat → List (Nat × Nat)
  | 0, _ => []
  | fuel + 1, i =>
    if i ≤ 256 then (int_log2 i + 1, i) :: bins_menu_loop fuel (i * 2) else []

/-- The menu lines `choose_bins` prints on every pass: `(option number, displayed value)`. -/
def bins_menu : List (Nat × Nat) := bins_menu_loop 257 1

/-- `choose_bins`: reads tokens until one parses to an integer `1 ≤ nchoice ≤ 9`
and returns `pow(2, nchoice)` with the rest of the input. -/
def choose_bins : List String → Option (Int × List String)
  | [] => none
  | choice :: rest =>
    match stoi choice with
    | some nchoice =>
      if 1 ≤ nchoice ∧ nchoice ≤ 9 then some (2 ^ nchoice.toNat, rest)
      else choose_bins rest
    | none => choose_bins rest

/-! ## `choose_memory` (main.cpp:170-203) -/

/-- `choose_memory`: `1` selects global memory (`false`), `2` local memory (`true`). -/
def choose_memory : List String → Option (Bool × List String)
  | [] => none
  | choice :: rest =>
    match stoi choice with
    | some 1 => some (false, rest)
    | some 2 => some (true, rest)
    | _ => choose_memory rest

/-! ## `choose_cumulation` (main.cpp:211-242) -/

/-- `choose_cumulation`: `1` returns `"bl"` (Blelloch), `2` returns `"hs"` (Hillis-Steele). -/
def choose_cumulation : List String → Option (String × List String)
  | [] => none
  | choice :: rest =>
    match stoi choice with
    | some 1 => some ("bl", rest)
    | some 2 => some ("hs", rest)
    | _ => choose_cumulation rest

/-! ## `choose_image` (main.cpp:26-119) -/

/-- `std::string::find_last_of(".")`: position of the last `c` in `s`, `none` for `npos`. -/
def find_last_of (s : List Char) (c : Char) : Option Nat :=
  match s with
  | [] => none
  | x :: xs =>
    match find_last_of xs c with
    | some p => some (p + 1)
    | none => if x = c then some 0 else none

/-- `std::string::substr(pos)` for `pos ≤ size`: the characters from `pos` on. -/
def substr (s : List Char) (pos : Nat) : List Char := s.drop pos

/-- The extension check of option 5 (main.cpp:88-106): `some is_colour` when the
file name is accepted, `none` when one of the two error messages is printed. -/
def check_extension (first : String) : Option Bool :=
  match find_last_of first.data '.' with
  | some dot_position =>
    let extension := substr first.data (dot_position + 1)
    if extension = "ppm".data then some true
    else if extension = "pgm".data then some false
    else none
  | none => none

/-- The read `std::cin >> choice`: the next token replaces `choice`.  At the end
of the input the read fails: it leaves `choice` as it was, and every later read
fails as well. -/
def cin_read (choice : String) (input : List String) : String × List String :=
  match input with
  | [] => (choice, [])
  | token :: rest => (token, rest)

/-- One pass of the body of `while (loop)` in `choose_image` (main.cpp:36-117),
from the value of `choice` and the input left.  `Sum.inl` is a pass that sets
`loop = false`: the pair in `img` and the input left; `Sum.inr` is a pass after
which the loop goes round again: the value of `choice` and the input left.
Option 5 reads the file name into `choice` as well (main.cpp:84). -/
def choose_image_pass (choice : String) (input : List String) :
    ((String × Bool) × List String) ⊕ (String × List String) :=
  let menu := cin_read choice input
  match stoi menu.1 with
  | some 1 => Sum.inl (("test.ppm", true), menu.2)
  | some 2 => Sum.inl (("test.pgm", false), menu.2)
  | some 3 => Sum.inl (("test_large.ppm", true), menu.2)
  | some 4 => Sum.inl (("test_large.pgm", false), menu.2)
  | some 5 =>
    let file := cin_read menu.1 menu.2
    match check_extension file.1 with
    | some is_colour => Sum.inl ((file.1, is_colour), file.2)
    | none => Sum.inr (file.1, file.2)
  | _ => Sum.inr (menu.1, menu.2)

/-- The loop of `choose_image`, cut off after `fuel` passes. -/
def choose_image_loop :
    Nat → String → List String → Option ((String × Bool) × List String)
  | 0, _, _ => none
  | fuel + 1, choice, input =>
    match choose_image_pass choice input with
    | Sum.inl img => some img
    | Sum.inr next => choose_image_loop fuel next.1 next.2

/-- `choose_image`: returns the pair `(filename, is_colour)` and the rest of the
input; `choice` starts as the empty string.  A pass that does not return uses
up at least one token, and once the input has ended a pass that does not return
leaves `choice` unchanged, so the loop then never exits: one pass more than
there are tokens decides (`choose_image_loop_stable`), and `none` stands for a
loop that never exits. -/
def choose_image (input : List String) : Option ((String × Bool) × List String) :=
  choose_image_loop (input.length + 1) "" input

/-! ## Single-precision arithmetic (main.cpp:285, 413-418)

`float image_size = img_in.size()`, `255.0f / image_size` and `scale * 3` are
IEEE-754 binary32 operations: each returns the exact result rounded to the
nearest value with a 24-bit significand, ties to even.  Only non-negative finite
values occur; a result that is not finite (division by zero, overflow) is `none`. -/

/-- A finite non-negative binary32 value `mant * 2 ^ expo`. -/
structure F32 where
  mant : Nat
  expo : Int
  deriving DecidableEq, Repr

/-- The rational number a binary32 value stands for. -/
def F32.toRat (x : F32) : ℚ := (x.mant : ℚ) * (2 : ℚ) ^ x.expo

/-- The exponent `E` with `2 ^ E ≤ n / d < 2 ^ (E + 1)`, for positive `n` and `d`. -/
def frac_exponent (n d : Nat) : Int :=
  let a := int_log2 n
  let b := int_log2 d
  if d * 2 ^ a ≤ n * 2 ^ b then (a : Int) - b else (a : Int) - b - 1

/-- Round the non-negative fraction `n / d` to binary32, to nearest, ties to even:
the significand is the fraction divided by the unit in the last place
`2 ^ (E - 23)`, rounded to an integer; exponents below `-126` are subnormal and
share the unit `2 ^ (-149)`; a rounded value of `2 ^ 128` or more is not finite. -/
def round_f32 (n d : Nat) : Option F32 :=
  if d = 0 then none
  else if n = 0 then some ⟨0, 0⟩
  else
    let s : Int := max (frac_exponent n d) (-126) - 23
    let num := if 0 ≤ s then n else n * 2 ^ (-s).toNat
    let den := if 0 ≤ s then d * 2 ^ s.toNat else d
    let m0 := num / den
    let r := num % den
    let m := if den < 2 * r ∨ (2 * r = den ∧ m0 % 2 = 1) then m0 + 1 else m0
    if 104 ≤ s ∧ 2 ^ 24 ≤ m * 2 ^ (s - 104).toNat then none else some ⟨m, s⟩

/-- Numerator of `mant * 2 ^ expo` over the denominator `F32.den`. -/
def F32.num (x : F32) : Nat := if 0 ≤ x.expo then x.mant * 2 ^ x.expo.toNat else x.mant

/-- Denominator of `mant * 2 ^ expo`: a power of two. -/
def F32.den (x : F32) : Nat := if 0 ≤ x.expo then 1 else 2 ^ (-x.expo).toNat

/-- Conversion of an unsigned integer to `float`. -/
def F32.of_nat (n : Nat) : Option F32 := round_f32 n 1

/-- Single-precision division `x / y`. -/
def F32.div (x y : F32) : Option F32 := round_f32 (x.num * y.den) (x.den * y.num)

/-- Single-precision multiplication `x * y`. -/
def F32.mul (x y : F32) : Option F32 := round_f32 (x.num * y.num) (x.den * y.den)

/-- The expression `255.0f / image_size` of main.cpp:413. -/
def scale_of_size (image_size : Option F32) : Option F32 :=
  (F32.of_nat 255).bind (fun c => image_size.bind (fun n => F32.div c n))

/-- The expression `scale * 3` of main.cpp:417. -/
def scale_times_three (scale : Option F32) : Option F32 :=
  scale.bind (fun x => (F32.of_nat 3).bind (fun c => F32.mul x c))

/-- The normalisation scale of main.cpp:285 and 413-418 for an image of
`size = img_in.size()` samples: `image_size = size` converted to `float`,
`scale = 255.0f / image_size`, and `scale = scale * 3` for a colour image. -/
def normalise_scale (size : Nat) (is_colour : Bool) : Option F32 :=
  if is_colour then scale_times_three (scale_of_size (F32.of_nat size))
  else scale_of_size (F32.of_nat size)

/-! ## Machine integers of the timing code (main.cpp:364-365, 399-400, 434-435, 464-465) -/

/-- Conversion of an integer to the 32-bit `int`: the value modulo `2 ^ 32` in
two's complement.  It is also used for the result of `total_timer += ...`; the
additions are exact whenever the sum fits an `int`, and every statement about
the total that relies on an addition assumes that it does. -/
def to_int32 (x : Int) : Int := (x + 2147483648) % 4294967296 - 2147483648

/-- The expression `END - START` on two `cl_ulong` counters, converted to `int`:
the subtraction is modulo `2 ^ 64`. -/
def elapsed_ns (start stop : Nat) : Int :=
  to_int32 (((stop : Int) - (start : Int)) % 18446744073709551616)

/-! ## The pipeline of `main` (main.cpp:262-496)

The body of the `try` block is a straight line of calls; the only branches test
the run configuration.  It is embedded as the list of its statements in source
order.  A statement carries the source line of its call, and its effect on the
program state together with the events it makes observable.  The OpenCL C++
wrapper is used with exceptions enabled (`main` catches `cl::Error`), so a call
that reports a failure throws, and control leaves the `try` block for one of
the two `catch` clauses of main.cpp:491-496, which only print the error. -/

/-- An argument bound with `cl::Kernel::setArg`. -/
inductive Arg where
  /-- A `cl::Buffer` handle, given by the memory object it refers to. -/
  | buffer (obj : Nat)
  /-- The local scratch space `cl::Local(bytes)`. -/
  | local_bytes (bytes : Nat)
  /-- An `int` argument. -/
  | int (v : Int)
  /-- A `float` argument; `none` is a value that is not finite. -/
  | float (v : Option F32)
  deriving DecidableEq, Repr

/-- A `cl::Kernel`: the entry point it was created for and the arguments set so far. -/
structure Kernel where
  name : String
  args : List (Nat × Arg)
  deriving DecidableEq, Repr

/-- The call `setArg(index, value)`: binds argument `index`, replacing an earlier binding. -/
def Kernel.setArg (k : Kernel) (index : Nat) (value : Arg) : Kernel :=
  { k with args := k.args.filter (fun p => p.1 ≠ index) ++ [(index, value)] }

/-- The argument bound at `index`, if any. -/
def Kernel.arg (k : Kernel) (index : Nat) : Option Arg :=
  (k.args.find? (fun p => p.1 = index)).map Prod.snd

/-- What a run makes observable. -/
inductive Event where
  | image_loaded (path : String)
  | image_displayed (title : String)
  /-- The forward colour transform `img_in.RGBtoYCbCr()`. -/
  | RGBtoYCbCr
  | context_acquired
  | queue_created
  | program_built
  | buffer_created (obj bytes : Nat)
  | buffer_written (obj bytes : Nat)
  /-- A call of `enqueueNDRangeKernel`: the kernel with its arguments, the global
  and the work-group size, and the contents each buffer argument has at that moment. -/
  | kernel_dispatched (k : Kernel) (global_size group_size : Nat)
      (contents : List (Nat × List Nat))
  | buffer_read (obj bytes : Nat)
  /-- A line `<label> <ns>` printed on `std::cout`. -/
  | time_printed (label : String) (ns : Int)
  /-- The construction of `img_out` from `out_buffer`. -/
  | output_constructed
  /-- The inverse colour transform `img_out.YCbCrtoRGB()`. -/
  | YCbCrtoRGB
  deriving DecidableEq, Repr

/-- Everything outside `main.cpp` that a run depends on. -/
structure World where
  /-- Whether the call on a source line reports a failure (throws). -/
  fails : Nat → Bool
  /-- The samples `CImg` loads from a file (`CImg.h` is not part of the sources). -/
  image : String → List Nat
  /-- Sample `i` of the image after `RGBtoYCbCr`, from the samples before. -/
  ycbcr_sample : List Nat → Nat → Nat
  /-- Sample `i` of the image after `YCbCrtoRGB`, from the samples before. -/
  rgb_sample : List Nat → Nat → Nat
  /-- The contents of a device buffer right after `cl::Buffer(context, flags, bytes)`:
  no host pointer is given, so OpenCL leaves them unspecified. -/
  uninit : Nat → Nat → List Nat
  /-- The effect of a kernel on device memory (`kernels/my_kernels.cl` is not part
  of the sources): kernel, global size, work-group size, memory before. -/
  kernel_effect : Kernel → Nat → Nat → (Nat → List Nat) → (Nat → List Nat)
  /-- `CL_PROFILING_COMMAND_START` of the kernel enqueued on a source line. -/
  prof_start : Nat → Nat
  /-- `CL_PROFILING_COMMAND_END` of the kernel enqueued on a source line. -/
  prof_end : Nat → Nat

/-- The user's selections (main.cpp:262-270). -/
structure Config where
  img_path : String
  is_colour : Bool
  nbins : Nat
  /-- The variable `local` of `main`. -/
  local_mem : Bool
  cumulation : String
  deriving DecidableEq, Repr

/-- The variables of `main` that the `try` block reads and writes. -/
structure St where
  /-- The samples of `img_in`; `img_in.size()` is their number. -/
  img_in : List Nat
  image_size : Option F32
  /-- The host vector `histogram`. -/
  histogram : List Nat
  total_memory : Nat
  /-- The memory objects the five `cl::Buffer` handles refer to (0: none yet). -/
  dev_img_in : Nat
  dev_img_out : Nat
  dev_histogram : Nat
  dev_cumulative : Nat
  dev_normalise : Nat
  /-- The contents of the device memory objects. -/
  mem : Nat → List Nat
  histogram_kernel : Option Kernel
  cumulative_kernel : Option Kernel
  normalise_kernel : Option Kernel
  equalise_kernel : Option Kernel
  histogram_time_ns : Int
  c_histogram_time_ns : Int
  n_histogram_time_ns : Int
  equalisation_time_ns : Int
  total_timer : Int
  scale : Option F32
  out_buffer : List Nat
  img_out : Option (List Nat)

/-- The state on entry to the `try` block: `histogram(nbins, 0)` and
`total_memory = nbins * sizeof(unsigned int)` (main.cpp:272-273). -/
def St.init (cfg : Config) : St :=
  { img_in := [], image_size := none,
    histogram := List.replicate cfg.nbins 0, total_memory := cfg.nbins * 4,
    dev_img_in := 0, dev_img_out := 0, dev_histogram := 0, dev_cumulative := 0,
    dev_normalise := 0, mem := fun _ => [],
    histogram_kernel := none, cumulative_kernel := none, normalise_kernel := none,
    equalise_kernel := none, histogram_time_ns := 0, c_histogram_time_ns := 0,
    n_histogram_time_ns := 0, equalisation_time_ns := 0, total_timer := 0, scale := none, out_buffer := [],
    img_out := none }

/-- One statement of the `try` block: the source line of its call and, when the
call is valid, the state after it and the events it produces.  `none` is a call
the OpenCL runtime rejects whatever the device does (a null kernel). -/
structure Stmt where
  line : Nat
  run : St → Option (St × List Event)

/-- A statement that only updates the state. -/
def Stmt.update (line : Nat) (f : St → St) : Stmt :=
  ⟨line, fun s => some (f s, [])⟩

/-- A statement that updates the state and produces one event, computed from the
state before the call. -/
def Stmt.call (line : Nat) (f : St → St) (ev : St → Event) : Stmt :=
  ⟨line, fun s => some (f s, [ev s])⟩

/-- The contents of the buffer arguments of a kernel, by argument index. -/
def buffer_contents (mem : Nat → List Nat) (k : Kernel) : List (Nat × List Nat) :=
  k.args.filterMap (fun p =>
    match p.2 with
    | Arg.buffer obj => some (p.1, mem obj)
    | _ => none)

/-- The call `queue.enqueueNDRangeKernel(kernel, NullRange, NDRange(global), NDRange(group), ..)`. -/
def Stmt.enqueue (w : World) (line : Nat) (kernel : St → Option Kernel)
    (global_size group_size : St → Nat) : Stmt :=
  ⟨line, fun s =>
    match kernel s with
    | none => none
    | some k =>
      some ({ s with mem := w.kernel_effect k (global_size s) (group_size s) s.mem },
        [Event.kernel_dispatched k (global_size s) (group_size s) (buffer_contents s.mem k)])⟩

/-- How a run of the `try` block ends. -/
structure Outcome where
  /-- The state when control leaves the block. -/
  final : St
  /-- The events in order, each with the source line of its statement. -/
  trace : List (Nat × Event)
  /-- The source line of the call that threw, `none` when the block ran to its end. -/
  thrown : Option Nat

/-- Runs statements in order until one throws. -/
def exec (fails : Nat → Bool) : List Stmt → St → Outcome
  | [], s => ⟨s, [], none⟩
  | c :: cs, s =>
    if fails c.line then ⟨s, [], some c.line⟩
    else
      match c.run s with
      | none => ⟨s, [], some c.line⟩
      | some (s1, evs) =>
        let r := exec fails cs s1
        ⟨r.final, evs.map (fun e => (c.line, e)) ++ r.trace, r.thrown⟩

/-- The `int ncolour = (is_colour) ? 1 : 0` of main.cpp:270. -/
def ncolour (cfg : Config) : Int := if cfg.is_colour then 1 else 0

/-- A colour transform of `CImg`: every sample is replaced, the shape is kept. -/
def transform (sample : List Nat → Nat → Nat) (img : List Nat) : List Nat :=
  (List.range img.length).map (sample img)

/-- Rebinds a kernel variable after `setArg(index, value)`. -/
def set_arg (k : Option Kernel) (index : Nat) (value : Arg) : Option Kernel :=
  k.map (fun k => k.setArg index value)

/-- Lines 282-329: the images, the OpenCL context, queue and program, the five
device buffers and the upload of the input image. -/
def setup_stmts (w : World) (cfg : Config) : List Stmt :=
  [ Stmt.call 282 (fun s => { s with img_in := w.image cfg.img_path })
      (fun _ => Event.image_loaded cfg.img_path),
    Stmt.call 283 id (fun _ => Event.image_displayed "input"),
    Stmt.update 285 (fun s => { s with image_size := F32.of_nat s.img_in.length }) ] ++
  (if cfg.is_colour then
    [ Stmt.call 286 (fun s => { s with img_in := transform w.ycbcr_sample s.img_in })
        (fun _ => Event.RGBtoYCbCr) ]
   else []) ++
  [ Stmt.call 294 id (fun _ => Event.context_acquired),
    Stmt.update 295 id,
    Stmt.call 298 id (fun _ => Event.queue_created),
    Stmt.update 302 id,
    Stmt.update 303 id,
    Stmt.call 307 id (fun _ => Event.program_built),
    Stmt.call 322
      (fun s => { s with dev_img_in := 1,
                         mem := Function.update s.mem 1 (w.uninit 1 s.img_in.length) })
      (fun s => Event.buffer_created 1 s.img_in.length),
    Stmt.call 323
      (fun s => { s with dev_img_out := 2,
                         mem := Function.update s.mem 2 (w.uninit 2 s.img_in.length) })
      (fun s => Event.buffer_created 2 s.img_in.length),
    Stmt.call 325
      (fun s => { s with dev_histogram := 3,
                         mem := Function.update s.mem 3 (w.uninit 3 s.total_memory) })
      (fun s => Event.buffer_created 3 s.total_memory),
    Stmt.call 326
      (fun s => { s with dev_cumulative := 4,
                         mem := Function.update s.mem 4 (w.uninit 4 s.total_memory) })
      (fun s => Event.buffer_created 4 s.total_memory),
    Stmt.call 327
      (fun s => { s with dev_normalise := 5,
                         mem := Function.update s.mem 5 (w.uninit 5 s.total_memory) })
      (fun s => Event.buffer_created 5 s.total_memory),
    Stmt.call 329
      (fun s => { s with mem := Function.update s.mem s.dev_img_in s.img_in })
      (fun s => Event.buffer_written s.dev_img_in s.img_in.length) ]

/-- Lines 337-366: the histogram kernel, chosen by `local`, its dispatch, the
read-back of the histogram and the start of the running total. -/
def histogram_stmts (w : World) (cfg : Config) : List Stmt :=
  (if cfg.local_mem then
    [ Stmt.update 343 (fun s => { s with histogram_kernel := some ⟨"local_histogram", []⟩ }),
      Stmt.update 344 (fun s => { s with
        histogram_kernel := set_arg s.histogram_kernel 0 (Arg.buffer s.dev_img_in) }),
      Stmt.update 345 (fun s => { s with
        histogram_kernel := set_arg s.histogram_kernel 1 (Arg.buffer s.dev_histogram) }),
      Stmt.update 346 (fun s => { s with
        histogram_kernel := set_arg s.histogram_kernel 2 (Arg.local_bytes s.total_memory) }),
      Stmt.update 347 (fun s => { s with
        histogram_kernel := set_arg s.histogram_kernel 3 (Arg.int cfg.nbins) }),
      Stmt.update 348 (fun s => { s with
        histogram_kernel := set_arg s.histogram_kernel 4 (Arg.int (ncolour cfg)) }) ]
   else
    [ Stmt.update 352 (fun s => { s with histogram_kernel := some ⟨"global_histogram", []⟩ }),
      Stmt.update 353 (fun s => { s with
        histogram_kernel := set_arg s.histogram_kernel 0 (Arg.buffer s.dev_img_in) }),
      Stmt.update 354 (fun s => { s with
        histogram_kernel := set_arg s.histogram_kernel 1 (Arg.buffer s.dev_histogram) }),
      Stmt.update 355 (fun s => { s with
        histogram_kernel := set_arg s.histogram_kernel 2 (Arg.int cfg.nbins) }),
      Stmt.update 356 (fun s => { s with
        histogram_kernel := set_arg s.histogram_kernel 3 (Arg.int (ncolour cfg)) }) ]) ++
  [ Stmt.enqueue w 360 (fun s => s.histogram_kernel) (fun s => s.img_in.length)
      (fun _ => cfg.nbins),
    Stmt.call 361 (fun s => { s with histogram := s.mem s.dev_histogram })
      (fun s => Event.buffer_read s.dev_histogram s.total_memory),
    Stmt.update 364 (fun s => { s with
      histogram_time_ns := elapsed_ns (w.prof_start 360) (w.prof_end 360) }),
    Stmt.update 365 (fun s => { s with total_timer := s.histogram_time_ns }),
    Stmt.call 366 id
      (fun s => Event.time_printed "Histogram kernel execution time [ns]:" s.histogram_time_ns) ]

/-- Lines 378-401: the scan kernel, chosen by `cumulation`, its dispatch and the
read-back of the cumulative histogram.  For any other value of `cumulation`
the kernel variable stays null. -/
def cumulative_stmts (w : World) (cfg : Config) : List Stmt :=
  (if cfg.cumulation = "hs" then
    [ Stmt.update 383 (fun s => { s with cumulative_kernel := some ⟨"hillis_steele_scan", []⟩ }),
      Stmt.update 384 (fun s => { s with
        cumulative_kernel := set_arg s.cumulative_kernel 0 (Arg.buffer s.dev_histogram) }),
      Stmt.update 385 (fun s => { s with
        cumulative_kernel := set_arg s.cumulative_kernel 1 (Arg.buffer s.dev_cumulative) }) ]
   else if cfg.cumulation = "bl" then
    [ Stmt.update 389 (fun s => { s with cumulative_kernel := some ⟨"blelloch_scan", []⟩ }),
      Stmt.update 390 (fun s => { s with
        cumulative_kernel := set_arg s.cumulative_kernel 0 (Arg.buffer s.dev_histogram) }),
      Stmt.update 391 (fun s => { s with dev_cumulative := s.dev_histogram }) ]
   else []) ++
  [ Stmt.enqueue w 395 (fun s => s.cumulative_kernel) (fun _ => cfg.nbins)
      (fun _ => cfg.nbins),
    Stmt.call 396 (fun s => { s with histogram := s.mem s.dev_cumulative })
      (fun s => Event.buffer_read s.dev_cumulative s.total_memory),
    Stmt.update 399 (fun s => { s with
      c_histogram_time_ns := elapsed_ns (w.prof_start 395) (w.prof_end 395) }),
    Stmt.update 400 (fun s => { s with
      total_timer := to_int32 (s.total_timer + s.c_histogram_time_ns) }),
    Stmt.call 401 id
      (fun s => Event.time_printed "Cummulative histogram kernel execution time [ns]:"
        s.c_histogram_time_ns) ]

/-- Lines 413-436: the scale, the normalise kernel, its dispatch and read-back. -/
def normalise_stmts (w : World) (cfg : Config) : List Stmt :=
  [ Stmt.update 413 (fun s => { s with scale := scale_of_size s.image_size }) ] ++
  (if cfg.is_colour then
    [ Stmt.update 417 (fun s => { s with scale := scale_times_three s.scale }) ]
   else []) ++
  [ Stmt.update 424 (fun s => { s with normalise_kernel := some ⟨"normalise_histogram", []⟩ }),
    Stmt.update 425 (fun s => { s with
      normalise_kernel := set_arg s.normalise_kernel 0 (Arg.buffer s.dev_cumulative) }),
    Stmt.update 426 (fun s => { s with
      normalise_kernel := set_arg s.normalise_kernel 1 (Arg.buffer s.dev_normalise) }),
    Stmt.update 427 (fun s => { s with
      normalise_kernel := set_arg s.normalise_kernel 2 (Arg.float s.scale) }),
    Stmt.enqueue w 430 (fun s => s.normalise_kernel) (fun _ => cfg.nbins)
      (fun _ => cfg.nbins),
    Stmt.call 431 (fun s => { s with histogram := s.mem s.dev_normalise })
      (fun s => Event.buffer_read s.dev_normalise s.total_memory),
    Stmt.update 434 (fun s => { s with
      n_histogram_time_ns := elapsed_ns (w.prof_start 430) (w.prof_end 430) }),
    Stmt.update 435 (fun s => { s with
      total_timer := to_int32 (s.total_timer + s.n_histogram_time_ns) }),
    Stmt.call 436 id
      (fun s => Event.time_printed "Normalised histogram kernel execution time [ns]:"
        s.n_histogram_time_ns) ]

/-- Lines 448-469: the equalise kernel, its dispatch, the read-back of the output
samples and the report of the total. -/
def equalise_stmts (w : World) (cfg : Config) : List Stmt :=
  [ Stmt.update 451 (fun s => { s with equalise_kernel := some ⟨"equalise_image", []⟩ }),
    Stmt.update 452 (fun s => { s with
      equalise_kernel := set_arg s.equalise_kernel 0 (Arg.buffer s.dev_img_in) }),
    Stmt.update 453 (fun s => { s with
      equalise_kernel := set_arg s.equalise_kernel 1 (Arg.buffer s.dev_img_out) }),
    Stmt.update 454 (fun s => { s with
      equalise_kernel := set_arg s.equalise_kernel 2 (Arg.buffer s.dev_normalise) }),
    Stmt.update 455 (fun s => { s with
      equalise_kernel := set_arg s.equalise_kernel 3 (Arg.int cfg.nbins) }),
    Stmt.update 456 (fun s => { s with
      equalise_kernel := set_arg s.equalise_kernel 4 (Arg.int (ncolour cfg)) }),
    Stmt.enqueue w 459 (fun s => s.equalise_kernel) (fun s => s.img_in.length)
      (fun _ => cfg.nbins),
    Stmt.update 460 (fun s => { s with out_buffer := List.replicate s.img_in.length 0 }),
    Stmt.call 461 (fun s => { s with out_buffer := s.mem s.dev_img_out })
      (fun s => Event.buffer_read s.dev_img_out s.out_buffer.length),
    Stmt.update 464 (fun s => { s with
      equalisation_time_ns := elapsed_ns (w.prof_start 459) (w.prof_end 459) }),
    Stmt.update 465 (fun s => { s with
      total_timer := to_int32 (s.total_timer + s.equalisation_time_ns) }),
    Stmt.call 466 id
      (fun s => Event.time_printed "Equalisation kernel execution time [ns]:"
        s.equalisation_time_ns),
    Stmt.call 469 id
      (fun s => Event.time_printed "Total execution time [ns]:" s.total_timer) ]

/-- Lines 472-482: the output image, the inverse colour transform and the display. -/
def output_stmts (w : World) (cfg : Config) : List Stmt :=
  [ Stmt.call 472 (fun s => { s with img_out := some s.out_buffer })
      (fun _ => Event.output_constructed) ] ++
  (if cfg.is_colour then
    [ Stmt.call 475 (fun s => { s with img_out := s.img_out.map (transform w.rgb_sample) })
        (fun _ => Event.YCbCrtoRGB) ]
   else []) ++
  [ Stmt.call 482 id (fun _ => Event.image_displayed "output") ]

/-- The statements of the `try` block of `main` (main.cpp:280-490), up to the
display of the output image.  The lines that only print a histogram vector
(370, 405, 440) and the loop that waits for the windows to be closed (485-489)
call nothing that can fail and change no variable; they are left out. -/
def main_try (w : World) (cfg : Config) : List Stmt :=
  setup_stmts w cfg ++ histogram_stmts w cfg ++ cumulative_stmts w cfg ++
    normalise_stmts w cfg ++ equalise_stmts w cfg ++ output_stmts w cfg

/-- One run of the pipeline for given selections. -/
def run (w : World) (cfg : Config) : Outcome :=
  exec w.fails (main_try w cfg) (St.init cfg)

/-- The function `main` without its command-line options: the four menus read
the user's tokens in turn (main.cpp:262-267), then the pipeline runs.  `none`
when the input ends before every menu has accepted a token. -/
def main (w : World) (input : List String) : Option Outcome :=
  match choose_image input with
  | none => none
  | some (img_info, input1) =>
    match choose_bins input1 with
    | none => none
    | some (nbins, input2) =>
      match choose_memory input2 with
      | none => none
      | some (local_mem, input3) =>
        match choose_cumulation input3 with
        | none => none
        | some (cumulation, _) =>
          some (run w ⟨img_info.1, img_info.2, nbins.toNat, local_mem, cumulation⟩)

/-! ## Vocabulary of the statements about runs -/

/-- The source lines of a list of statements, in order. -/
def lines (cs : List Stmt) : List Nat := cs.map (fun c => c.line)

/-- The events of the output image: its construction, the inverse colour
transform and its display. -/
def output_event (e : Event) : Prop :=
  e = Event.output_constructed ∨ e = Event.YCbCrtoRGB ∨ e = Event.image_displayed "output"

/-- The total `main` accumulates from the four stage times, with the `int`
additions of main.cpp:400, 435 and 465. -/
def total_of (w : World) : Int :=
  to_int32 (to_int32 (to_int32 (elapsed_ns (w.prof_start 360) (w.prof_end 360) +
    elapsed_ns (w.prof_start 395) (w.prof_end 395)) +
    elapsed_ns (w.prof_start 430) (w.prof_end 430)) +
    elapsed_ns (w.prof_start 459) (w.prof_end 459))

/-- The sum over the four stages of the end counter minus the start counter. -/
def stage_time_sum (w : World) : Int :=
  ((w.prof_end 360 : Int) - w.prof_start 360) + ((w.prof_end 395 : Int) - w.prof_start 395) +
  ((w.prof_end 430 : Int) - w.prof_start 430) + ((w.prof_end 459 : Int) - w.prof_start 459)

/-- What an event of a run of `main` can be, by the line it happens on. -/
def event_ok (w : World) (cfg : Config) (p : Nat × Event) : Prop :=
  match p.2 with
  | Event.kernel_dispatched k g l c =>
    (p.1 = 360 ∧ k.name = (if cfg.local_mem then "local_histogram" else "global_histogram") ∧
      g = (w.image cfg.img_path).length ∧ l = cfg.nbins ∧
      k.arg 1 = some (Arg.buffer 3) ∧ (1, w.uninit 3 (cfg.nbins * 4)) ∈ c) ∨
    (p.1 = 395 ∧ g = cfg.nbins ∧ l = cfg.nbins ∧
      ((cfg.cumulation = "hs" ∧
          k = ⟨"hillis_steele_scan", [(0, Arg.buffer 3), (1, Arg.buffer 4)]⟩) ∨
        (cfg.cumulation = "bl" ∧ k = ⟨"blelloch_scan", [(0, Arg.buffer 3)]⟩))) ∨
    (p.1 = 430 ∧ k.name = "normalise_histogram" ∧ g = cfg.nbins ∧ l = cfg.nbins ∧
      k.arg 0 = some (Arg.buffer (if cfg.cumulation = "hs" then 4 else 3)) ∧
      k.arg 1 = some (Arg.buffer 5) ∧
      k.arg 2 = some (Arg.float
        (normalise_scale (w.image cfg.img_path).length cfg.is_colour))) ∨
    (p.1 = 459 ∧ k.name = "equalise_image" ∧
      g = (w.image cfg.img_path).length ∧ l = cfg.nbins)
  | Event.buffer_read obj _ =>
    (p.1 = 361 ∧ obj = 3) ∨ (p.1 = 396 ∧ obj = (if cfg.cumulation = "hs" then 4 else 3)) ∨
    (p.1 = 431 ∧ obj = 5) ∨ (p.1 = 461 ∧ obj = 2)
  | Event.time_printed label t => label = "Total execution time [ns]:" → t = total_of w
  | Event.output_constructed => p.1 = 472
  | Event.YCbCrtoRGB => p.1 = 475
  | Event.image_displayed title => title = "output" → p.1 = 482
  | _ => True

/-- The binary32 values: a significand of at most 24 bits times a power of two
with the exponent of the unit in the last place between `-149` and `104`, with
either sign. -/
def is_binary32 (q : ℚ) : Prop :=
  ∃ (m : Nat) (e : Int), m < 2 ^ 24 ∧ -149 ≤ e ∧ e ≤ 104 ∧
    (q = (m : ℚ) * (2 : ℚ) ^ e ∨ q = -((m : ℚ) * (2 : ℚ) ^ e))

/-- IEEE-754 rounding to binary32 in the normal range, to nearest, ties to even:
`x` is a binary32 value, no binary32 value is nearer to `q`, and when another
binary32 value is just as near, `x` is the one with the even 24-bit significand. -/
def rounds_to (q x : ℚ) : Prop :=
  is_binary32 x ∧
  (∀ y, is_binary32 y → |x - q| ≤ |y - q|) ∧
  (∀ y, is_binary32 y → y ≠ x → |y - q| = |x - q| →
    ∃ (m : Nat) (e : Int), 2 ^ 23 ≤ m ∧ m < 2 ^ 24 ∧ m % 2 = 0 ∧ x = (m : ℚ) * (2 : ℚ) ^ e)

/-- The scale as the spec states it: the rational `255 / N`, multiplied by 3
for a colour image. -/
def spec_scale (N : Nat) (is_colour : Bool) : ℚ :=
  if is_colour then 3 * (255 / (N : ℚ)) else 255 / (N : ℚ)

/-- The steps of the equalisation pipeline. -/
inductive Stage where
  | forward_transform
  | histogram
  | scan
  | normalise
  | remap
  | inverse_transform
  deriving DecidableEq, Repr

/-- The pipeline step an event belongs to: the two colour transforms, and the
dispatch of a kernel by the entry point it was created for. -/
def stage_of (e : Event) : Option Stage :=
  match e with
  | Event.RGBtoYCbCr => some Stage.forward_transform
  | Event.YCbCrtoRGB => some Stage.inverse_transform
  | Event.kernel_dispatched k _ _ _ =>
    if k.name = "local_histogram" ∨ k.name = "global_histogram" then some Stage.histogram
    else if k.name = "hillis_steele_scan" ∨ k.name = "blelloch_scan" then some Stage.scan
    else if k.name = "normalise_histogram" then some Stage.normalise
    else if k.name = "equalise_image" then some Stage.remap
    else none
  | _ => none

/-- The pipeline steps of a trace, in the order they happened. -/
def stages (trace : List (Nat × Event)) : List Stage :=
  trace.filterMap (fun p => stage_of p.2)

/-- Modelled from the spec: the device code `kernels/my_kernels.cl` is missing
from the sources; this is the index of the argument in which a scan kernel leaves
the cumulative histogram.  Hillis-Steele "writes to a separate destination", its
second argument; Blelloch works "in place on the histogram buffer", its only
argument. -/
def scan_result_arg (name : String) : Nat :=
  if name = "hillis_steele_scan" then 1 else 0

/-! ## Concrete worlds and selections -/

/-- A world in which no call fails: an image of eight samples, colour
transforms and kernels that leave the data as they are, empty fresh buffers,
and a kernel enqueued on line `L` running from `L` ns to `3 * L` ns. -/
def sample_world : World :=
  { fails := fun _ => false,
    image := fun _ => [0, 32, 64, 96, 128, 160, 192, 224],
    ycbcr_sample := fun img i => img.getD i 0,
    rgb_sample := fun img i => img.getD i 0,
    uninit := fun _ _ => [],
    kernel_effect := fun _ _ _ mem => mem,
    prof_start := fun line => line,
    prof_end := fun line => 3 * line }

/-- The sample world with the read-back of the cumulative histogram (line 396) failing. -/
def failing_world : World :=
  { sample_world with fails := fun line => line = 396 }

/-- The sample world with device allocations that hold 7 in every 4-byte word. -/
def stale_world : World :=
  { sample_world with uninit := fun _ bytes => List.replicate (bytes / 4) 7 }

/-- The sample world with a histogram kernel that runs for `2 ^ 31` ns and three
other kernels that take no time. -/
def slow_world : World :=
  { sample_world with
    prof_start := fun _ => 0,
    prof_end := fun line => if line = 360 then 2147483648 else 0 }

/-- The sample world with an image of seven samples. -/
def seven_world : World :=
  { sample_world with image := fun _ => [0, 1, 2, 3, 4, 5, 6] }

/-- Grey test image, 8 bins, global memory, Blelloch scan. -/
def sample_config : Config := ⟨"test.pgm", false, 8, false, "bl"⟩

/-- Colour test image, 8 bins, local memory, Hillis-Steele scan. -/
def colour_config : Config := ⟨"test.ppm", true, 8, true, "hs"⟩

/-! ## General facts about `exec` -/

theorem exec_not_thrown (f : Nat → Bool) :
    ∀ (cs : List Stmt) (s : St), (exec f cs s).thrown = none →
      exec f cs s = exec (fun _ => false) cs s := by
  intro cs
  induction cs with
  | nil => intro s _; rfl
  | cons c cs ih =>
    intro s h
    unfold exec at h ⊢
    by_cases hf : f c.line = true
    · simp [hf] at h
    · simp only [hf, Bool.false_eq_true, if_false] at h ⊢
      cases hr : c.run s with
      | none => simp [hr] at h
      | some p =>
        obtain ⟨s1, evs⟩ := p
        simp only [hr] at h ⊢
        rw [ih s1 h]

theorem exec_trace_initial (f : Nat → Bool) :
    ∀ (cs : List Stmt) (s : St),
      (exec f cs s).trace <+: (exec (fun _ => false) cs s).trace := by
  intro cs
  induction cs with
  | nil => intro s; exact List.prefix_refl _
  | cons c cs ih =>
    intro s
    unfold exec
    by_cases hf : f c.line = true
    · simp [hf]
    · simp only [hf, Bool.false_eq_true, if_false]
      cases hr : c.run s with
      | none => exact List.prefix_refl _
      | some p =>
        obtain ⟨s1, evs⟩ := p
        simp only []
        exact (List.prefix_append_right_inj _).mpr (ih s1)

theorem exec_thrown_mem (f : Nat → Bool) :
    ∀ (cs : List Stmt) (s : St) (L : Nat), (exec f cs s).thrown = some L → L ∈ lines cs := by
  intro cs
  induction cs with
  | nil => intro s L h; simp [exec] at h
  | cons c cs ih =>
    intro s L h
    unfold exec at h
    by_cases hf : f c.line = true
    · simp only [hf, if_true, Option.some.injEq] at h
      simp [lines, h.symm]
    · simp only [hf, Bool.false_eq_true, if_false] at h
      cases hr : c.run s with
      | none =>
        simp only [hr, Option.some.injEq] at h
        simp [lines, h.symm]
      | some p =>
        obtain ⟨s1, evs⟩ := p
        simp only [hr] at h
        have := ih s1 L h
        simp only [lines, List.map_cons, List.mem_cons] at this ⊢
        exact Or.inr this

theorem exec_trace_line_mem (f : Nat → Bool) :
    ∀ (cs : List Stmt) (s : St) (p : Nat × Event), p ∈ (exec f cs s).trace → p.1 ∈ lines cs := by
  intro cs
  induction cs with
  | nil => intro s p h; simp [exec] at h
  | cons c cs ih =>
    intro s p h
    unfold exec at h
    by_cases hf : f c.line = true
    · simp [hf] at h
    · simp only [hf, Bool.false_eq_true, if_false] at h
      cases hr : c.run s with
      | none => simp [hr] at h
      | some q =>
        obtain ⟨s1, evs⟩ := q
        simp only [hr, List.mem_append, List.mem_map] at h
        rcases h with ⟨e, -, rfl⟩ | h
        · simp [lines]
        · have := ih s1 p h
          simp only [lines, List.map_cons, List.mem_cons] at this ⊢
          exact Or.inr this

/-- When the lines increase along the statements, everything in the trace
happened on a line before the one that threw. -/
theorem exec_trace_lt (f : Nat → Bool) :
    ∀ (cs : List Stmt) (s : St) (L : Nat), (lines cs).Pairwise (fun a b => a < b) →
      (exec f cs s).thrown = some L → ∀ p ∈ (exec f cs s).trace, p.1 < L := by
  intro cs
  induction cs with
  | nil => intro s L _ h; simp [exec] at h
  | cons c cs ih =>
    intro s L hs h p hp
    have hs2 : (∀ l ∈ lines cs, c.line < l) ∧ (lines cs).Pairwise (fun a b => a < b) := by
      simpa [lines] using hs
    unfold exec at h hp
    by_cases hf : f c.line = true
    · simp [hf] at hp
    · simp only [hf, Bool.false_eq_true, if_false] at h hp
      cases hr : c.run s with
      | none => simp [hr] at hp
      | some q =>
        obtain ⟨s1, evs⟩ := q
        simp only [hr, List.mem_append, List.mem_map] at h hp
        rcases hp with ⟨e, -, rfl⟩ | hp
        · exact hs2.1 L (exec_thrown_mem f cs s1 L h)
        · exact ih s1 L hs2.2 h p hp

/-- When the lines increase along the statements, a statement whose call fails
makes the run throw there or earlier. -/
theorem exec_fails_thrown (f : Nat → Bool) :
    ∀ (cs : List Stmt) (s : St) (L : Nat), (lines cs).Pairwise (fun a b => a < b) →
      L ∈ lines cs → f L = true → ∃ L1, (exec f cs s).thrown = some L1 ∧ L1 ≤ L := by
  intro cs
  induction cs with
  | nil => intro s L _ h; simp [lines] at h
  | cons c cs ih =>
    intro s L hs hL hf
    have hs2 : (∀ l ∈ lines cs, c.line < l) ∧ (lines cs).Pairwise (fun a b => a < b) := by
      simpa [lines] using hs
    have hL2 : L = c.line ∨ L ∈ lines cs := by simpa [lines] using hL
    have hle : c.line ≤ L := by
      rcases hL2 with h | h
      · exact h.ge
      · exact (hs2.1 L h).le
    unfold exec
    by_cases hc : f c.line = true
    · exact ⟨c.line, by simp [hc], hle⟩
    · simp only [hc, Bool.false_eq_true, if_false]
      cases hr : c.run s with
      | none => exact ⟨c.line, rfl, hle⟩
      | some q =>
        obtain ⟨s1, evs⟩ := q
        rcases hL2 with h | h
        · rw [h] at hf; exact absurd hf hc
        · exact ih s1 L hs2.2 h hf

/-- When the lines increase along the statements, an event in the trace shows
that no call on its line or on an earlier line of the list failed. -/
theorem exec_trace_reached (f : Nat → Bool) :
    ∀ (cs : List Stmt) (s : St), (lines cs).Pairwise (fun a b => a < b) →
      ∀ p ∈ (exec f cs s).trace, ∀ l ∈ lines cs, l ≤ p.1 → f l = false := by
  intro cs s hs p hp l hl hle
  by_contra hfl
  have hfl : f l = true := by simpa using hfl
  obtain ⟨L1, h1, h2⟩ := exec_fails_thrown f cs s l hs hl hfl
  have := exec_trace_lt f cs s L1 hs h1 p hp
  omega

set_option maxRecDepth 100000 in
theorem main_try_lines (w : World) (cfg : Config) :
    (lines (main_try w cfg)).Pairwise (fun a b => a < b) := by
  rw [← List.chain'_iff_pairwise]
  obtain ⟨path, colour, nbins, loc, cum⟩ := cfg
  by_cases hs : cum = "hs"
  · subst hs
    cases colour <;> cases loc <;>
      simp [lines, main_try, setup_stmts, histogram_stmts, cumulative_stmts, normalise_stmts,
        equalise_stmts, output_stmts, Stmt.call, Stmt.update, Stmt.enqueue]
  · by_cases hb : cum = "bl"
    · subst hb
      cases colour <;> cases loc <;>
        simp [lines, main_try, setup_stmts, histogram_stmts, cumulative_stmts, normalise_stmts,
          equalise_stmts, output_stmts, Stmt.call, Stmt.update, Stmt.enqueue]
    · cases colour <;> cases loc <;>
        simp [lines, main_try, setup_stmts, histogram_stmts, cumulative_stmts, normalise_stmts,
          equalise_stmts, output_stmts, Stmt.call, Stmt.update, Stmt.enqueue, hs, hb]

/-- When the lines increase along the statements, a statement on a line before
an event of the trace was run, and the events it produced are in the trace. -/
theorem exec_executed (f : Nat → Bool) :
    ∀ (cs : List Stmt) (s : St), (lines cs).Pairwise (fun a b => a < b) →
      ∀ p ∈ (exec f cs s).trace, ∀ c ∈ cs, c.line < p.1 →
        ∃ s0 s1 evs, c.run s0 = some (s1, evs) ∧
          ∀ e ∈ evs, (c.line, e) ∈ (exec f cs s).trace := by
  intro cs
  induction cs with
  | nil => intro s _ p hp; simp [exec] at hp
  | cons c0 cs ih =>
    intro s hs p hp c hc hlt
    have hs2 : (∀ l ∈ lines cs, c0.line < l) ∧ (lines cs).Pairwise (fun a b => a < b) := by
      simpa [lines] using hs
    unfold exec at hp ⊢
    by_cases hf : f c0.line = true
    · simp [hf] at hp
    · simp only [hf, Bool.false_eq_true, if_false] at hp ⊢
      cases hr : c0.run s with
      | none => simp [hr] at hp
      | some q =>
        obtain ⟨s1, evs⟩ := q
        simp only [hr, List.mem_append, List.mem_map] at hp ⊢
        rcases List.mem_cons.mp hc with rfl | hc
        · exact ⟨s, s1, evs, hr, fun e he => Or.inl ⟨e, he, rfl⟩⟩
        · have hcl : c0.line < c.line := hs2.1 c.line (List.mem_map_of_mem _ hc)
          rcases hp with ⟨e, -, rfl⟩ | hp
          · simp only at hlt; omega
          · obtain ⟨t0, t1, tevs, h1, h2⟩ := ih s1 hs2.2 p hp c hc hlt
            exact ⟨t0, t1, tevs, h1, fun e he => Or.inr (h2 e he)⟩

/-! ## The events of a run -/

set_option maxRecDepth 100000 in
set_option maxHeartbeats 8000000 in
theorem nofail_run (w : World) (cfg : Config) :
    (∀ p ∈ (exec (fun _ => false) (main_try w cfg) (St.init cfg)).trace, event_ok w cfg p) ∧
    ((exec (fun _ => false) (main_try w cfg) (St.init cfg)).thrown = none →
      stages (exec (fun _ => false) (main_try w cfg) (St.init cfg)).trace =
        (if cfg.is_colour then [Stage.forward_transform] else []) ++
        [Stage.histogram, Stage.scan, Stage.normalise, Stage.remap] ++
        (if cfg.is_colour then [Stage.inverse_transform] else [])) := by
  obtain ⟨path, colour, nbins, loc, cum⟩ := cfg
  by_cases hs : cum = "hs"
  · subst hs
    cases colour <;> cases loc <;>
      simp [event_ok, total_of, normalise_scale, transform, buffer_contents, stages, stage_of,
        Kernel.arg, main_try, setup_stmts, histogram_stmts, cumulative_stmts,
        normalise_stmts, equalise_stmts, output_stmts, exec, Stmt.call, Stmt.update,
        Stmt.enqueue, St.init, set_arg, Kernel.setArg]
  · by_cases hb : cum = "bl"
    · subst hb
      cases colour <;> cases loc <;>
        simp [event_ok, total_of, normalise_scale, transform, buffer_contents, stages, stage_of,
          Kernel.arg, main_try, setup_stmts, histogram_stmts, cumulative_stmts,
          normalise_stmts, equalise_stmts, output_stmts, exec, Stmt.call, Stmt.update,
          Stmt.enqueue, St.init, set_arg, Kernel.setArg]
    · cases colour <;> cases loc <;>
        simp [event_ok, total_of, normalise_scale, transform, buffer_contents, stages, stage_of,
          Kernel.arg, main_try, setup_stmts, histogram_stmts, cumulative_stmts,
          normalise_stmts, equalise_stmts, output_stmts, exec, Stmt.call, Stmt.update,
          Stmt.enqueue, St.init, set_arg, Kernel.setArg, hs, hb]

theorem run_events (w : World) (cfg : Config) : ∀ p ∈ (run w cfg).trace, event_ok w cfg p :=
  fun p hp => (nofail_run w cfg).1 p ((exec_trace_initial w.fails _ _).subset hp)

theorem run_success_stages (w : World) (cfg : Config) (h : (run w cfg).thrown = none) :
    stages (run w cfg).trace =
      (if cfg.is_colour then [Stage.forward_transform] else []) ++
      [Stage.histogram, Stage.scan, Stage.normalise, Stage.remap] ++
      (if cfg.is_colour then [Stage.inverse_transform] else []) := by
  have he : run w cfg = exec (fun _ => false) (main_try w cfg) (St.init cfg) :=
    exec_not_thrown w.fails _ _ h
  rw [he] at h ⊢
  exact (nofail_run w cfg).2 h

/-! ## The menus -/

theorem bins_menu_eq :
    bins_menu = [(1, 1), (2, 2), (3, 4), (4, 8), (5, 16), (6, 32), (7, 64), (8, 128), (9, 256)] := by
  decide

theorem choose_bins_skip (t : String) (rest : List String)
    (h : ∀ j, stoi t = some j → ¬ (1 ≤ j ∧ j ≤ 9)) :
    choose_bins (t :: rest) = choose_bins rest := by
  rw [choose_bins]
  cases hs : stoi t with
  | none => rfl
  | some j => simp [h j hs]

theorem choose_bins_skip_all (rejected : List String) (tail : List String)
    (h : ∀ t ∈ rejected, ∀ j, stoi t = some j → ¬ (1 ≤ j ∧ j ≤ 9)) :
    choose_bins (rejected ++ tail) = choose_bins tail := by
  induction rejected with
  | nil => rfl
  | cons t ts ih =>
    rw [List.cons_append, choose_bins_skip t _ (h t (List.mem_cons_self _ _))]
    exact ih (fun u hu => h u (List.mem_cons_of_mem _ hu))

theorem choose_bins_take (choice : String) (rest : List String) (k : Int)
    (hk : stoi choice = some k) (h1 : 1 ≤ k) (h9 : k ≤ 9) :
    choose_bins (choice :: rest) = some (2 ^ k.toNat, rest) := by
  rw [choose_bins]
  simp [hk, h1, h9]

/-- Every input on which `choose_bins` returns is a run of rejected tokens
followed by an accepted one. -/
theorem choose_bins_returns (input : List String) (nbins : Int) (rest : List String)
    (h : choose_bins input = some (nbins, rest)) :
    ∃ rejected choice k, input = rejected ++ choice :: rest ∧
      (∀ t ∈ rejected, ∀ j, stoi t = some j → ¬ (1 ≤ j ∧ j ≤ 9)) ∧
      stoi choice = some k ∧ 1 ≤ k ∧ k ≤ 9 ∧ nbins = 2 ^ k.toNat := by
  induction input with
  | nil => simp [choose_bins] at h
  | cons t ts ih =>
    by_cases hacc : ∃ j, stoi t = some j ∧ 1 ≤ j ∧ j ≤ 9
    · obtain ⟨j, hj, h1, h9⟩ := hacc
      rw [choose_bins_take t ts j hj h1 h9] at h
      simp only [Option.some.injEq, Prod.mk.injEq] at h
      exact ⟨[], t, j, by simp [h.2], by simp, hj, h1, h9, h.1.symm⟩
    · have hrej : ∀ j, stoi t = some j → ¬ (1 ≤ j ∧ j ≤ 9) :=
        fun j hj hr => hacc ⟨j, hj, hr.1, hr.2⟩
      rw [choose_bins_skip t ts hrej] at h
      obtain ⟨rejected, choice, k, hin, hr, hk⟩ := ih h
      refine ⟨t :: rejected, choice, k, by simp [hin], ?_, hk⟩
      intro u hu
      rcases List.mem_cons.mp hu with rfl | hu
      · exact hrej
      · exact hr u hu

/-- C9: for every accepted menu choice `k` (the first token that parses to an
integer with `1 ≤ k ≤ 9`), `choose_bins` returns `2 ^ k`, the menu line printed
for option `k` shows `2 ^ (k - 1)` and nothing else, and the returned bin count
is exactly twice the displayed value. -/
theorem choose_bins_twice_displayed (rejected : List String) (choice : String)
    (rest : List String) (k : Int)
    (hrej : ∀ t ∈ rejected, ∀ j, stoi t = some j → ¬ (1 ≤ j ∧ j ≤ 9))
    (hk : stoi choice = some k) (h1 : 1 ≤ k) (h9 : k ≤ 9) :
    choose_bins (rejected ++ choice :: rest) = some (2 ^ k.toNat, rest) ∧
    (∀ shown, (k.toNat, shown) ∈ bins_menu ↔ shown = 2 ^ (k.toNat - 1)) ∧
    (2 : Int) ^ k.toNat = 2 * ((2 ^ (k.toNat - 1) : Nat) : Int) := by
  refine ⟨?_, ?_, ?_⟩
  · rw [choose_bins_skip_all rejected _ hrej]
    exact choose_bins_take choice rest k hk h1 h9
  · intro shown
    rw [bins_menu_eq]
    interval_cases k <;> simp
  · interval_cases k <;> simp

/-- Witness of `choose_bins_twice_displayed`: three rejected tokens, then `9`. -/
theorem choose_bins_twice_displayed_witness :
    choose_bins (["x", "0", "10"] ++ "9" :: ["1"]) = some (2 ^ (9 : Int).toNat, ["1"]) ∧
    (∀ shown, ((9 : Int).toNat, shown) ∈ bins_menu ↔ shown = 2 ^ ((9 : Int).toNat - 1)) ∧
    (2 : Int) ^ (9 : Int).toNat = 2 * ((2 ^ ((9 : Int).toNat - 1) : Nat) : Int) :=
  choose_bins_twice_displayed ["x", "0", "10"] "9" ["1"] 9 (by decide) (by decide)
    (by decide) (by decide)

/-- C1: the token `9` is accepted and gives 512 bins, although the menu line of
option 9 shows 256 and the function is documented to select 2 to 256 bins; `main`
then runs every stage with `nbins = 512`. -/
theorem choose_bins_nine :
    choose_bins ["9"] = some (512, []) ∧ (9, 256) ∈ bins_menu ∧
    ¬ ((512 : Int) ≤ 256) ∧
    ∀ w : World, main w ["2", "9", "1", "1"] =
      some (run w ⟨"test.pgm", false, 512, false, "bl"⟩) := by
  refine ⟨by decide, by decide, by decide, ?_⟩
  intro w
  have h1 : choose_image ["2", "9", "1", "1"] = some (("test.pgm", false), ["9", "1", "1"]) := by
    decide
  have h2 : choose_bins ["9", "1", "1"] = some (512, ["1", "1"]) := by decide
  have h3 : choose_memory ["1", "1"] = some (false, ["1"]) := by decide
  have h4 : choose_cumulation ["1"] = some ("bl", []) := by decide
  simp [main, h1, h2, h3, h4]

theorem find_last_of_split (c : Char) :
    ∀ (s : List Char) (p : Nat), find_last_of s c = some p →
      s = s.take p ++ c :: substr s (p + 1) ∧ c ∉ substr s (p + 1) := by
  intro s
  induction s with
  | nil => intro p h; simp [find_last_of] at h
  | cons x xs ih =>
    intro p h
    rw [find_last_of] at h
    cases hq : find_last_of xs c with
    | some q =>
      simp only [hq, Option.some.injEq] at h
      subst h
      obtain ⟨h1, h2⟩ := ih q hq
      refine ⟨?_, ?_⟩
      · simp only [List.take_succ_cons, List.cons_append, substr, List.drop_succ_cons]
        simp only [substr] at h1
        rw [← h1]
      · simpa [substr] using h2
    | none =>
      simp only [hq] at h
      by_cases hx : x = c
      · simp only [hx, if_true, Option.some.injEq] at h
        subst h
        subst hx
        refine ⟨by simp [substr], ?_⟩
        have hnone : ∀ (l : List Char), find_last_of l x = none → x ∉ l := by
          intro l
          induction l with
          | nil => intro _; simp
          | cons y ys ihy =>
            intro hl
            rw [find_last_of] at hl
            cases hq2 : find_last_of ys x with
            | some q => simp [hq2] at hl
            | none =>
              simp only [hq2] at hl
              by_cases hy : y = x
              · simp [hy] at hl
              · simp only [List.mem_cons, not_or]
                exact ⟨fun e => hy e.symm, ihy hq2⟩
        simpa [substr] using hnone xs hq
      · simp [hx] at h

theorem check_extension_some (first : String) (is_colour : Bool)
    (h : check_extension first = some is_colour) :
    ∃ stem extension, first.data = stem ++ '.' :: extension ∧ '.' ∉ extension ∧
      (extension = "ppm".data ∨ extension = "pgm".data) ∧
      (is_colour = true ↔ extension = "ppm".data) ∧
      (is_colour = false ↔ extension = "pgm".data) := by
  unfold check_extension at h
  cases hp : find_last_of first.data '.' with
  | none => simp [hp] at h
  | some p =>
    obtain ⟨hsplit, hnot⟩ := find_last_of_split '.' first.data p hp
    simp only [hp] at h
    have hne : "ppm".data ≠ "pgm".data := by decide
    refine ⟨first.data.take p, substr first.data (p + 1), hsplit, hnot, ?_⟩
    by_cases h1 : substr first.data (p + 1) = "ppm".data
    · rw [if_pos h1, Option.some.injEq] at h
      subst h
      simp [h1, hne]
    · by_cases h2 : substr first.data (p + 1) = "pgm".data
      · rw [if_neg h1, if_pos h2, Option.some.injEq] at h
        subst h
        simp [h2, hne.symm]
      · simp [h1, h2] at h

theorem cin_read_length (choice : String) (input : List String) :
    (cin_read choice input).2.length ≤ input.length ∧
    (input ≠ [] → (cin_read choice input).2.length < input.length) ∧
    (input = [] → cin_read choice input = (choice, [])) := by
  cases input with
  | nil => simp [cin_read]
  | cons t ts => simp [cin_read]

/-- A pass of `choose_image` that does not return uses up a token, or the input
has ended and the pass leaves `choice` and the input as they were. -/
theorem choose_image_pass_next (choice : String) (input : List String)
    (next : String × List String) (h : choose_image_pass choice input = Sum.inr next) :
    next.2.length < input.length ∨ (input = [] ∧ next = (choice, [])) := by
  have hnext : next = cin_read choice input ∨
      next = cin_read (cin_read choice input).1 (cin_read choice input).2 := by
    simp only [choose_image_pass] at h
    split at h
    · simp at h
    · simp at h
    · simp at h
    · simp at h
    · split at h
      · simp at h
      · exact Or.inr (Sum.inr.inj h).symm
    · exact Or.inl (Sum.inr.inj h).symm
  obtain ⟨h1, h2, h3⟩ := cin_read_length choice input
  obtain ⟨h4, -, h6⟩ := cin_read_length (cin_read choice input).1 (cin_read choice input).2
  by_cases hin : input = []
  · right
    refine ⟨hin, ?_⟩
    have hm := h3 hin
    rcases hnext with hn | hn
    · rw [hn, hm]
    · rw [hn, hm]
      rfl
  · left
    have hlt := h2 hin
    rcases hnext with hn | hn
    · rw [hn]; exact hlt
    · rw [hn]; omega

theorem choose_image_loop_mono :
    ∀ (fuel : Nat) (choice : String) (input : List String)
      (img : (String × Bool) × List String),
      choose_image_loop fuel choice input = some img →
        ∀ more, fuel ≤ more → choose_image_loop more choice input = some img := by
  intro fuel
  induction fuel with
  | zero => intro choice input img h; simp [choose_image_loop] at h
  | succ fuel ih =>
    intro choice input img h more hle
    obtain ⟨k, rfl⟩ : ∃ k, more = k + 1 := ⟨more - 1, by omega⟩
    rw [choose_image_loop] at h ⊢
    cases hp : choose_image_pass choice input with
    | inl r => simpa [hp] using h
    | inr next =>
      simp only [hp] at h ⊢
      exact ih next.1 next.2 img h k (by omega)

/-- Whatever number of passes lets the loop of `choose_image` return, one pass
more than there are tokens lets it return the same: when that many passes do
not return, the loop never exits. -/
theorem choose_image_loop_stable :
    ∀ (fuel : Nat) (choice : String) (input : List String)
      (img : (String × Bool) × List String),
      choose_image_loop fuel choice input = some img →
        choose_image_loop (input.length + 1) choice input = some img := by
  intro fuel
  induction fuel with
  | zero => intro choice input img h; simp [choose_image_loop] at h
  | succ fuel ih =>
    intro choice input img h
    rw [choose_image_loop] at h ⊢
    cases hp : choose_image_pass choice input with
    | inl r => simpa [hp] using h
    | inr next =>
      simp only [hp] at h ⊢
      rcases choose_image_pass_next choice input next hp with hlt | ⟨hnil, hnext⟩
      · exact choose_image_loop_mono _ _ _ _ (ih next.1 next.2 img h) _ (by omega)
      · subst hnil
        subst hnext
        have h1 := ih choice [] img h
        rw [List.length_nil, choose_image_loop, hp] at h1
        simp [choose_image_loop] at h1

theorem choose_image_pass_consistent (choice : String) (input : List String)
    (filename : String) (is_colour : Bool) (rest : List String)
    (h : choose_image_pass choice input = Sum.inl ((filename, is_colour), rest)) :
    ∃ stem extension, filename.data = stem ++ '.' :: extension ∧ '.' ∉ extension ∧
      (extension = "ppm".data ∨ extension = "pgm".data) ∧
      (is_colour = true ↔ extension = "ppm".data) ∧
      (is_colour = false ↔ extension = "pgm".data) := by
  simp only [choose_image_pass] at h
  split at h
  · simp only [Sum.inl.injEq, Prod.mk.injEq] at h
    obtain ⟨⟨hf, hc⟩, -⟩ := h
    subst hf hc
    exact ⟨"test".data, "ppm".data, by decide, by decide, Or.inl rfl, by decide, by decide⟩
  · simp only [Sum.inl.injEq, Prod.mk.injEq] at h
    obtain ⟨⟨hf, hc⟩, -⟩ := h
    subst hf hc
    exact ⟨"test".data, "pgm".data, by decide, by decide, Or.inr rfl, by decide, by decide⟩
  · simp only [Sum.inl.injEq, Prod.mk.injEq] at h
    obtain ⟨⟨hf, hc⟩, -⟩ := h
    subst hf hc
    exact ⟨"test_large".data, "ppm".data, by decide, by decide, Or.inl rfl, by decide,
      by decide⟩
  · simp only [Sum.inl.injEq, Prod.mk.injEq] at h
    obtain ⟨⟨hf, hc⟩, -⟩ := h
    subst hf hc
    exact ⟨"test_large".data, "pgm".data, by decide, by decide, Or.inr rfl, by decide,
      by decide⟩
  · split at h
    · rename_i colour hext
      simp only [Sum.inl.injEq, Prod.mk.injEq] at h
      obtain ⟨⟨hf, hc⟩, -⟩ := h
      subst hc
      rw [← hf]
      exact check_extension_some _ colour hext
    · exact absurd h (by simp)
  · exact absurd h (by simp)

theorem choose_image_loop_consistent :
    ∀ (fuel : Nat) (choice : String) (input : List String) (filename : String)
      (is_colour : Bool) (rest : List String),
      choose_image_loop fuel choice input = some ((filename, is_colour), rest) →
      ∃ stem extension, filename.data = stem ++ '.' :: extension ∧ '.' ∉ extension ∧
        (extension = "ppm".data ∨ extension = "pgm".data) ∧
        (is_colour = true ↔ extension = "ppm".data) ∧
        (is_colour = false ↔ extension = "pgm".data) := by
  intro fuel
  induction fuel with
  | zero => intro choice input filename is_colour rest h; simp [choose_image_loop] at h
  | succ fuel ih =>
    intro choice input filename is_colour rest h
    rw [choose_image_loop] at h
    cases hp : choose_image_pass choice input with
    | inl r =>
      simp only [hp, Option.some.injEq] at h
      subst h
      exact choose_image_pass_consistent choice input filename is_colour rest hp
    | inr next =>
      simp only [hp] at h
      exact ih next.1 next.2 filename is_colour rest h

/-- C7: whenever `choose_image` returns (also when it returns on a token left in
`choice` after the input has ended), the file name it returns ends in a `'.'`
followed by an extension without `'.'` that is `ppm` or `pgm`, and `is_colour`
is true exactly when that extension is `ppm` and false exactly when it is
`pgm`. -/
theorem choose_image_consistent (input : List String) (filename : String)
    (is_colour : Bool) (rest : List String)
    (h : choose_image input = some ((filename, is_colour), rest)) :
    ∃ stem extension, filename.data = stem ++ '.' :: extension ∧ '.' ∉ extension ∧
      (extension = "ppm".data ∨ extension = "pgm".data) ∧
      (is_colour = true ↔ extension = "ppm".data) ∧
      (is_colour = false ↔ extension = "pgm".data) :=
  choose_image_loop_consistent _ _ _ _ _ _ h

/-- Witness of `choose_image_consistent`: a custom file accepted at the second
try, and two inputs that end before the loop returns, on which the token left in
`choice` is read again. -/
theorem choose_image_consistent_witness :
    (∃ stem extension, "x.y.pgm".data = stem ++ '.' :: extension ∧ '.' ∉ extension ∧
      (extension = "ppm".data ∨ extension = "pgm".data) ∧
      (false = true ↔ extension = "ppm".data) ∧
      (false = false ↔ extension = "pgm".data)) ∧
    (∃ stem extension, "5.ppm".data = stem ++ '.' :: extension ∧ '.' ∉ extension ∧
      (extension = "ppm".data ∨ extension = "pgm".data) ∧
      (true = true ↔ extension = "ppm".data) ∧
      (true = false ↔ extension = "pgm".data)) ∧
    (∃ stem extension, "test_large.ppm".data = stem ++ '.' :: extension ∧
      '.' ∉ extension ∧
      (extension = "ppm".data ∨ extension = "pgm".data) ∧
      (true = true ↔ extension = "ppm".data) ∧
      (true = false ↔ extension = "pgm".data)) :=
  ⟨choose_image_consistent ["7", "5", "a.b", "5", "x.y.pgm", "k"] "x.y.pgm" false ["k"]
      (by decide),
    choose_image_consistent ["5.ppm"] "5.ppm" true [] (by decide),
    choose_image_consistent ["5", "3"] "test_large.ppm" true [] (by decide)⟩

/-- The scan selection `choose_cumulation` returns is `"bl"` or `"hs"`, and
nothing else. -/
theorem choose_cumulation_range (input : List String) (cumulation : String)
    (rest : List String) (h : choose_cumulation input = some (cumulation, rest)) :
    cumulation = "bl" ∨ cumulation = "hs" := by
  induction input with
  | nil => simp [choose_cumulation] at h
  | cons t ts ih =>
    rw [choose_cumulation] at h
    split at h
    · simp only [Option.some.injEq, Prod.mk.injEq] at h
      exact Or.inl h.1.symm
    · simp only [Option.some.injEq, Prod.mk.injEq] at h
      exact Or.inr h.1.symm
    · exact ih h

/-! ## The pipeline -/

theorem exec_success_executed (f : Nat → Bool) :
    ∀ (cs : List Stmt) (s : St), (exec f cs s).thrown = none →
      ∀ c ∈ cs, ∃ s0 s1 evs, c.run s0 = some (s1, evs) ∧
        ∀ e ∈ evs, (c.line, e) ∈ (exec f cs s).trace := by
  intro cs
  induction cs with
  | nil => intro s _ c hc; simp at hc
  | cons c0 cs ih =>
    intro s h c hc
    unfold exec at h ⊢
    by_cases hf : f c0.line = true
    · simp [hf] at h
    · simp only [hf, Bool.false_eq_true, if_false] at h ⊢
      cases hr : c0.run s with
      | none => simp [hr] at h
      | some q =>
        obtain ⟨s1, evs⟩ := q
        simp only [hr, List.mem_append, List.mem_map] at h ⊢
        rcases List.mem_cons.mp hc with rfl | hc
        · exact ⟨s, s1, evs, hr, fun e he => Or.inl ⟨e, he, rfl⟩⟩
        · obtain ⟨t0, t1, tevs, h1, h2⟩ := ih s1 h c hc
          exact ⟨t0, t1, tevs, h1, fun e he => Or.inr (h2 e he)⟩

theorem enqueue_run (w : World) (line : Nat) (kernel : St → Option Kernel)
    (global_size group_size : St → Nat) (s0 s1 : St) (evs : List Event)
    (h : (Stmt.enqueue w line kernel global_size group_size).run s0 = some (s1, evs)) :
    ∃ k g l c, evs = [Event.kernel_dispatched k g l c] := by
  simp only [Stmt.enqueue] at h
  split at h
  · exact absurd h (by simp)
  · simp only [Option.some.injEq, Prod.mk.injEq] at h
    exact ⟨_, _, _, _, h.2.symm⟩

theorem call_run (line : Nat) (f : St → St) (ev : St → Event) (s0 s1 : St)
    (evs : List Event) (h : (Stmt.call line f ev).run s0 = some (s1, evs)) :
    evs = [ev s0] := by
  simp only [Stmt.call, Option.some.injEq, Prod.mk.injEq] at h
  exact h.2.symm

theorem output_events_late (w : World) (cfg : Config) :
    ∀ p ∈ (run w cfg).trace, output_event p.2 → 472 ≤ p.1 := by
  intro p hp hout
  have hok := run_events w cfg p hp
  obtain ⟨l, e⟩ := p
  rcases hout with h | h | h <;> simp only at h <;> subst h <;>
    simp [event_ok] at hok <;> omega

/-- C2: if the call on any line of the `try` block before the construction of
the output image fails, the run throws on that line or an earlier one, every
event of the run (every dispatch included) happened on a line before the throw,
and the output image is neither constructed, transformed back nor displayed.
Conversely, when the output image is constructed, no call up to there failed,
all four kernels were dispatched and every transfer was made. -/
theorem failure_aborts_pipeline (w : World) (cfg : Config) :
    (∀ L ∈ lines (main_try w cfg), L < 472 → w.fails L = true →
      ∃ L1, (run w cfg).thrown = some L1 ∧ L1 ≤ L ∧
        (∀ p ∈ (run w cfg).trace, p.1 < L1) ∧
        (∀ p ∈ (run w cfg).trace, ¬ output_event p.2)) ∧
    ((472, Event.output_constructed) ∈ (run w cfg).trace →
      (∀ L ∈ lines (main_try w cfg), L ≤ 472 → w.fails L = false) ∧
      (∀ line ∈ [360, 395, 430, 459],
        ∃ k g l c, (line, Event.kernel_dispatched k g l c) ∈ (run w cfg).trace) ∧
      (∃ obj bytes, (329, Event.buffer_written obj bytes) ∈ (run w cfg).trace) ∧
      (∀ line ∈ [361, 396, 431, 461],
        ∃ obj bytes, (line, Event.buffer_read obj bytes) ∈ (run w cfg).trace)) := by
  have hsorted := main_try_lines w cfg
  refine ⟨?_, ?_⟩
  · intro L hL h472 hf
    obtain ⟨L1, h1, h2⟩ := exec_fails_thrown w.fails (main_try w cfg) (St.init cfg) L hsorted hL hf
    have h3 := exec_trace_lt w.fails (main_try w cfg) (St.init cfg) L1 hsorted h1
    refine ⟨L1, h1, h2, h3, ?_⟩
    intro p hp hout
    have := output_events_late w cfg p hp hout
    have := h3 p hp
    omega
  · intro hout
    have hex := exec_executed w.fails (main_try w cfg) (St.init cfg) hsorted _ hout
    refine ⟨?_, ?_, ?_, ?_⟩
    · intro L hL hle
      exact exec_trace_reached w.fails (main_try w cfg) (St.init cfg) hsorted _ hout L hL hle
    · intro line hline
      simp only [List.mem_cons, List.mem_singleton, List.not_mem_nil, or_false] at hline
      rcases hline with rfl | rfl | rfl | rfl
      · obtain ⟨s0, s1, evs, h1, h2⟩ := hex
          (Stmt.enqueue w 360 (fun s => s.histogram_kernel) (fun s => s.img_in.length)
            (fun _ => cfg.nbins)) (by simp [main_try, histogram_stmts]) (by simp [Stmt.enqueue])
        obtain ⟨k, g, l, c, rfl⟩ := enqueue_run w _ _ _ _ s0 s1 evs h1
        exact ⟨k, g, l, c, h2 _ (List.mem_singleton_self _)⟩
      · obtain ⟨s0, s1, evs, h1, h2⟩ := hex
          (Stmt.enqueue w 395 (fun s => s.cumulative_kernel) (fun _ => cfg.nbins)
            (fun _ => cfg.nbins)) (by simp [main_try, cumulative_stmts]) (by simp [Stmt.enqueue])
        obtain ⟨k, g, l, c, rfl⟩ := enqueue_run w _ _ _ _ s0 s1 evs h1
        exact ⟨k, g, l, c, h2 _ (List.mem_singleton_self _)⟩
      · obtain ⟨s0, s1, evs, h1, h2⟩ := hex
          (Stmt.enqueue w 430 (fun s => s.normalise_kernel) (fun _ => cfg.nbins)
            (fun _ => cfg.nbins)) (by simp [main_try, normalise_stmts]) (by simp [Stmt.enqueue])
        obtain ⟨k, g, l, c, rfl⟩ := enqueue_run w _ _ _ _ s0 s1 evs h1
        exact ⟨k, g, l, c, h2 _ (List.mem_singleton_self _)⟩
      · obtain ⟨s0, s1, evs, h1, h2⟩ := hex
          (Stmt.enqueue w 459 (fun s => s.equalise_kernel) (fun s => s.img_in.length)
            (fun _ => cfg.nbins)) (by simp [main_try, equalise_stmts]) (by simp [Stmt.enqueue])
        obtain ⟨k, g, l, c, rfl⟩ := enqueue_run w _ _ _ _ s0 s1 evs h1
        exact ⟨k, g, l, c, h2 _ (List.mem_singleton_self _)⟩
    · obtain ⟨s0, s1, evs, h1, h2⟩ := hex
        (Stmt.call 329
          (fun s => { s with mem := Function.update s.mem s.dev_img_in s.img_in })
          (fun s => Event.buffer_written s.dev_img_in s.img_in.length))
        (by simp [main_try, setup_stmts]) (by simp [Stmt.call])
      rw [call_run _ _ _ s0 s1 evs h1] at h2
      exact ⟨_, _, h2 _ (List.mem_singleton_self _)⟩
    · intro line hline
      simp only [List.mem_cons, List.mem_singleton, List.not_mem_nil, or_false] at hline
      rcases hline with rfl | rfl | rfl | rfl
      · obtain ⟨s0, s1, evs, h1, h2⟩ := hex
          (Stmt.call 361 (fun s => { s with histogram := s.mem s.dev_histogram })
            (fun s => Event.buffer_read s.dev_histogram s.total_memory))
          (by simp [main_try, histogram_stmts]) (by simp [Stmt.call])
        rw [call_run _ _ _ s0 s1 evs h1] at h2
        exact ⟨_, _, h2 _ (List.mem_singleton_self _)⟩
      · obtain ⟨s0, s1, evs, h1, h2⟩ := hex
          (Stmt.call 396 (fun s => { s with histogram := s.mem s.dev_cumulative })
            (fun s => Event.buffer_read s.dev_cumulative s.total_memory))
          (by simp [main_try, cumulative_stmts]) (by simp [Stmt.call])
        rw [call_run _ _ _ s0 s1 evs h1] at h2
        exact ⟨_, _, h2 _ (List.mem_singleton_self _)⟩
      · obtain ⟨s0, s1, evs, h1, h2⟩ := hex
          (Stmt.call 431 (fun s => { s with histogram := s.mem s.dev_normalise })
            (fun s => Event.buffer_read s.dev_normalise s.total_memory))
          (by simp [main_try, normalise_stmts]) (by simp [Stmt.call])
        rw [call_run _ _ _ s0 s1 evs h1] at h2
        exact ⟨_, _, h2 _ (List.mem_singleton_self _)⟩
      · obtain ⟨s0, s1, evs, h1, h2⟩ := hex
          (Stmt.call 461 (fun s => { s with out_buffer := s.mem s.dev_img_out })
            (fun s => Event.buffer_read s.dev_img_out s.out_buffer.length))
          (by simp [main_try, equalise_stmts]) (by simp [Stmt.call])
        rw [call_run _ _ _ s0 s1 evs h1] at h2
        exact ⟨_, _, h2 _ (List.mem_singleton_self _)⟩

/-- Witness of `failure_aborts_pipeline`: a run whose read-back on line 396
fails, and a run that constructs the output image. -/
theorem failure_aborts_pipeline_witness :
    (∃ L1, (run failing_world sample_config).thrown = some L1 ∧ L1 ≤ 396 ∧
      (∀ p ∈ (run failing_world sample_config).trace, p.1 < L1) ∧
      (∀ p ∈ (run failing_world sample_config).trace, ¬ output_event p.2)) ∧
    ((∀ L ∈ lines (main_try sample_world sample_config), L ≤ 472 →
        sample_world.fails L = false) ∧
      (∀ line ∈ [360, 395, 430, 459], ∃ k g l c,
        (line, Event.kernel_dispatched k g l c) ∈ (run sample_world sample_config).trace) ∧
      (∃ obj bytes,
        (329, Event.buffer_written obj bytes) ∈ (run sample_world sample_config).trace) ∧
      (∀ line ∈ [361, 396, 431, 461], ∃ obj bytes,
        (line, Event.buffer_read obj bytes) ∈ (run sample_world sample_config).trace)) :=
  ⟨(failure_aborts_pipeline failing_world sample_config).1 396 (by decide) (by decide)
      (by decide),
    (failure_aborts_pipeline sample_world sample_config).2 (by decide)⟩

/-- C10: every kernel dispatch of a run is one of the four stages; the histogram
and equalise kernels are dispatched with the image's sample count as global size
and `nbins` as work-group size, so the global size is a whole multiple of the
work-group size exactly when `nbins` divides the sample count; the scan and
normalise kernels are dispatched with global and work-group size both `nbins`. -/
theorem dispatch_sizes (w : World) (cfg : Config) (line : Nat) (k : Kernel) (g l : Nat)
    (c : List (Nat × List Nat))
    (h : (line, Event.kernel_dispatched k g l c) ∈ (run w cfg).trace) :
    ((k.name = "local_histogram" ∨ k.name = "global_histogram" ∨ k.name = "equalise_image") ∧
      (line = 360 ∨ line = 459) ∧
      g = (w.image cfg.img_path).length ∧ l = cfg.nbins ∧
      (g % l = 0 ↔ cfg.nbins ∣ (w.image cfg.img_path).length)) ∨
    ((k.name = "hillis_steele_scan" ∨ k.name = "blelloch_scan" ∨
        k.name = "normalise_histogram") ∧
      (line = 395 ∨ line = 430) ∧ g = cfg.nbins ∧ l = cfg.nbins) := by
  have hok := run_events w cfg _ h
  simp only [event_ok] at hok
  rcases hok with ⟨h1, h2, h3, h4, -⟩ | ⟨h1, h3, h4, h2⟩ | ⟨h1, h2, h3, h4, -⟩ | ⟨h1, h2, h3, h4⟩
  · left
    refine ⟨?_, Or.inl h1, h3, h4, ?_⟩
    · rw [h2]; cases cfg.local_mem <;> simp
    · rw [h3, h4, Nat.dvd_iff_mod_eq_zero]
  · right
    refine ⟨?_, Or.inl h1, h3, h4⟩
    rcases h2 with ⟨-, rfl⟩ | ⟨-, rfl⟩ <;> simp
  · right
    exact ⟨Or.inr (Or.inr h2), Or.inr h1, h3, h4⟩
  · left
    refine ⟨Or.inr (Or.inr h2), Or.inr h1, h3, h4, ?_⟩
    rw [h3, h4, Nat.dvd_iff_mod_eq_zero]

/-- Witness of `dispatch_sizes`: the histogram dispatch of the sample run. -/
theorem dispatch_sizes_witness :
    (("global_histogram" = "local_histogram" ∨ "global_histogram" = "global_histogram" ∨
        "global_histogram" = "equalise_image") ∧
      (360 = 360 ∨ 360 = 459) ∧
      8 = (sample_world.image sample_config.img_path).length ∧ 8 = sample_config.nbins ∧
      (8 % 8 = 0 ↔ sample_config.nbins ∣ (sample_world.image sample_config.img_path).length)) ∨
    (("global_histogram" = "hillis_steele_scan" ∨ "global_histogram" = "blelloch_scan" ∨
        "global_histogram" = "normalise_histogram") ∧
      (360 = 395 ∨ 360 = 430) ∧ 8 = sample_config.nbins ∧ 8 = sample_config.nbins) :=
  dispatch_sizes sample_world sample_config 360
    ⟨"global_histogram", [(0, Arg.buffer 1), (1, Arg.buffer 3), (2, Arg.int 8), (3, Arg.int 0)]⟩
    8 8 [(0, [0, 32, 64, 96, 128, 160, 192, 224]), (1, [])] (by decide)

/-- C5: a run that reaches the end of the `try` block performs the forward colour
transform (if and only if the image is colour), then the histogram, scan,
normalise and remap dispatches once each in that order, then the inverse colour
transform (if and only if the image is colour), and no other pipeline step. -/
theorem stage_order (w : World) (cfg : Config) (h : (run w cfg).thrown = none) :
    stages (run w cfg).trace =
      (if cfg.is_colour then [Stage.forward_transform] else []) ++
      [Stage.histogram, Stage.scan, Stage.normalise, Stage.remap] ++
      (if cfg.is_colour then [Stage.inverse_transform] else []) :=
  run_success_stages w cfg h

/-- Witness of `stage_order`: the sample run on a colour image. -/
theorem stage_order_witness :
    (run sample_world colour_config).thrown = none ∧
    stages (run sample_world colour_config).trace =
      (if colour_config.is_colour then [Stage.forward_transform] else []) ++
      [Stage.histogram, Stage.scan, Stage.normalise, Stage.remap] ++
      (if colour_config.is_colour then [Stage.inverse_transform] else []) :=
  ⟨by decide, stage_order sample_world colour_config (by decide)⟩

/-- In every run, the buffer bound as argument 1 of the histogram kernel is memory
object 3 (`dev_histogram`), and at the dispatch on line 360 it holds what its
allocation left there: nothing writes to it before. -/
theorem histogram_dispatch_contents (w : World) (cfg : Config) (k : Kernel) (g l : Nat)
    (c : List (Nat × List Nat))
    (h : (360, Event.kernel_dispatched k g l c) ∈ (run w cfg).trace) :
    k.arg 1 = some (Arg.buffer 3) ∧ (1, w.uninit 3 (cfg.nbins * 4)) ∈ c := by
  have hok := run_events w cfg _ h
  simp [event_ok] at hok
  exact ⟨hok.2.2.2.1, hok.2.2.2.2⟩

/-- C4: on a device whose fresh allocations hold 7 in every word, the histogram
kernel is dispatched on a `dev_histogram` (its argument 1, memory object 3) that
still holds those values, not zeros: the zero-filled host vector `histogram` is
never copied to the device buffer before line 360. -/
theorem histogram_buffer_not_zeroed :
    (St.init sample_config).histogram = [0, 0, 0, 0, 0, 0, 0, 0] ∧
    (360, Event.kernel_dispatched
      ⟨"global_histogram",
        [(0, Arg.buffer 1), (1, Arg.buffer 3), (2, Arg.int 8), (3, Arg.int 0)]⟩
      8 8 [(0, [0, 32, 64, 96, 128, 160, 192, 224]), (1, [7, 7, 7, 7, 7, 7, 7, 7])]) ∈
      (run stale_world sample_config).trace := by
  decide

/-- C6: when the histogram kernel runs for `2 ^ 31` ns and the other three take
no time, the run succeeds and the total it prints is `-2147483648`, while the
four stage times add up to `2147483648` ns. -/
theorem total_time_overflow :
    (run slow_world sample_config).thrown = none ∧
    (469, Event.time_printed "Total execution time [ns]:" (-2147483648)) ∈
      (run slow_world sample_config).trace ∧
    stage_time_sum slow_world = 2147483648 := by
  decide

/-- Within the range of `int` the total is right: in a run that reaches the end of
the `try` block, when every stage's end counter is not before its start counter
and the four stage times add up to less than `2 ^ 31` ns, the total that `main`
prints is the sum of the four stage times, and it prints no other total. -/
theorem total_time_sum (w : World) (cfg : Config) (h : (run w cfg).thrown = none)
    (hle : ∀ line ∈ [360, 395, 430, 459], w.prof_start line ≤ w.prof_end line)
    (hsum : stage_time_sum w < 2147483648) :
    (469, Event.time_printed "Total execution time [ns]:" (stage_time_sum w)) ∈
      (run w cfg).trace ∧
    ∀ line t, (line, Event.time_printed "Total execution time [ns]:" t) ∈ (run w cfg).trace →
      t = stage_time_sum w := by
  have htot : total_of w = stage_time_sum w := by
    have h1 := hle 360 (by simp)
    have h2 := hle 395 (by simp)
    have h3 := hle 430 (by simp)
    have h4 := hle 459 (by simp)
    simp only [total_of, stage_time_sum, elapsed_ns, to_int32] at hsum ⊢
    omega
  have hall : ∀ line t,
      (line, Event.time_printed "Total execution time [ns]:" t) ∈ (run w cfg).trace →
        t = stage_time_sum w := by
    intro line t ht
    have hok := run_events w cfg _ ht
    simp only [event_ok] at hok
    rw [← htot]
    exact hok trivial
  refine ⟨?_, hall⟩
  obtain ⟨s0, s1, evs, h1, h2⟩ := exec_success_executed w.fails (main_try w cfg) (St.init cfg) h
    (Stmt.call 469 id
      (fun s => Event.time_printed "Total execution time [ns]:" s.total_timer))
    (by simp [main_try, equalise_stmts])
  rw [call_run _ _ _ s0 s1 evs h1] at h2
  have hin := h2 _ (List.mem_singleton_self _)
  simp only [Stmt.call] at hin
  have := hall _ _ hin
  rw [this] at hin
  exact hin

/-- The sample run, whose stages take 3288 ns, prints that total. -/
theorem total_time_sum_witness :
    (469, Event.time_printed "Total execution time [ns]:" (stage_time_sum sample_world)) ∈
      (run sample_world sample_config).trace ∧
    ∀ line t, (line, Event.time_printed "Total execution time [ns]:" t) ∈
      (run sample_world sample_config).trace → t = stage_time_sum sample_world :=
  total_time_sum sample_world sample_config (by decide) (by decide) (by decide)

/-- C8: for a selection that `choose_cumulation` returns (`"bl"` or `"hs"`), a
run that reaches the end of the `try` block dispatches exactly one scan kernel;
the buffer read back on line 396 and the input of the normalise kernel are the
buffer in which that scan leaves its result: the separate object 4 for
Hillis-Steele, whose input is the histogram object 3, and the histogram object
3 itself for Blelloch. -/
theorem scan_result_buffer (w : World) (cfg : Config) (input rest : List String)
    (hc : choose_cumulation input = some (cfg.cumulation, rest))
    (hrun : (run w cfg).thrown = none) :
    (cfg.cumulation = "bl" ∨ cfg.cumulation = "hs") ∧
    (stages (run w cfg).trace).count Stage.scan = 1 ∧
    ∃ result k g l c bytes k2 g2 l2 c2 k1 g1 l1 c1,
      (360, Event.kernel_dispatched k1 g1 l1 c1) ∈ (run w cfg).trace ∧
      k1.arg 1 = some (Arg.buffer 3) ∧
      (395, Event.kernel_dispatched k g l c) ∈ (run w cfg).trace ∧
      (396, Event.buffer_read result bytes) ∈ (run w cfg).trace ∧
      (430, Event.kernel_dispatched k2 g2 l2 c2) ∈ (run w cfg).trace ∧
      k.arg (scan_result_arg k.name) = some (Arg.buffer result) ∧
      k2.arg 0 = some (Arg.buffer result) ∧
      ((cfg.cumulation = "hs" ∧ result = 4 ∧
          k = ⟨"hillis_steele_scan", [(0, Arg.buffer 3), (1, Arg.buffer 4)]⟩) ∨
        (cfg.cumulation = "bl" ∧ result = 3 ∧
          k = ⟨"blelloch_scan", [(0, Arg.buffer 3)]⟩)) ∧
      (∀ obj n, (396, Event.buffer_read obj n) ∈ (run w cfg).trace → obj = result) ∧
      (∀ k3 g3 l3 c3, (430, Event.kernel_dispatched k3 g3 l3 c3) ∈ (run w cfg).trace →
        k3.arg 0 = some (Arg.buffer result)) := by
  have hcum := choose_cumulation_range input cfg.cumulation rest hc
  have hex := exec_success_executed w.fails (main_try w cfg) (St.init cfg) hrun
  refine ⟨hcum, ?_, ?_⟩
  · rw [run_success_stages w cfg hrun]
    cases cfg.is_colour <;> decide
  · obtain ⟨a0, a1, aevs, ha1, ha2⟩ := hex
      (Stmt.enqueue w 360 (fun s => s.histogram_kernel) (fun s => s.img_in.length)
        (fun _ => cfg.nbins)) (by simp [main_try, histogram_stmts])
    obtain ⟨k1, g1, l1, c1, rfl⟩ := enqueue_run w _ _ _ _ a0 a1 aevs ha1
    have hd1 := ha2 _ (List.mem_singleton_self _)
    obtain ⟨s0, s1, evs, h1, h2⟩ := hex
      (Stmt.enqueue w 395 (fun s => s.cumulative_kernel) (fun _ => cfg.nbins)
        (fun _ => cfg.nbins)) (by simp [main_try, cumulative_stmts])
    obtain ⟨k, g, l, c, rfl⟩ := enqueue_run w _ _ _ _ s0 s1 evs h1
    have hd := h2 _ (List.mem_singleton_self _)
    obtain ⟨t0, t1, tevs, h3, h4⟩ := hex
      (Stmt.call 396 (fun s => { s with histogram := s.mem s.dev_cumulative })
        (fun s => Event.buffer_read s.dev_cumulative s.total_memory))
      (by simp [main_try, cumulative_stmts])
    rw [call_run _ _ _ t0 t1 tevs h3] at h4
    have hr := h4 _ (List.mem_singleton_self _)
    obtain ⟨u0, u1, uevs, h5, h6⟩ := hex
      (Stmt.enqueue w 430 (fun s => s.normalise_kernel) (fun _ => cfg.nbins)
        (fun _ => cfg.nbins)) (by simp [main_try, normalise_stmts])
    obtain ⟨k2, g2, l2, c2, rfl⟩ := enqueue_run w _ _ _ _ u0 u1 uevs h5
    have hn := h6 _ (List.mem_singleton_self _)
    simp only [Stmt.enqueue, Stmt.call] at hd1 hd hr hn
    have hread : ∀ obj n, (396, Event.buffer_read obj n) ∈ (run w cfg).trace →
        obj = (if cfg.cumulation = "hs" then 4 else 3) := by
      intro obj n ho
      have hok := run_events w cfg _ ho
      simpa [event_ok] using hok
    have hnorm : ∀ k3 g3 l3 c3,
        (430, Event.kernel_dispatched k3 g3 l3 c3) ∈ (run w cfg).trace →
          k3.arg 0 = some (Arg.buffer (if cfg.cumulation = "hs" then 4 else 3)) := by
      intro k3 g3 l3 c3 ho
      have hok := run_events w cfg _ ho
      simp [event_ok] at hok
      exact hok.2.2.2.1
    have hk1 : k1.arg 1 = some (Arg.buffer 3) := by
      have hok := run_events w cfg _ hd1
      simp [event_ok] at hok
      exact hok.2.2.2.1
    have hk : (cfg.cumulation = "hs" ∧
          k = ⟨"hillis_steele_scan", [(0, Arg.buffer 3), (1, Arg.buffer 4)]⟩) ∨
        (cfg.cumulation = "bl" ∧ k = ⟨"blelloch_scan", [(0, Arg.buffer 3)]⟩) := by
      have hok := run_events w cfg _ hd
      simp [event_ok] at hok
      exact hok.2.2
    rw [hread _ _ hr] at hr
    refine ⟨_, k, g, l, c, _, k2, g2, l2, c2, k1, g1, l1, c1, hd1, hk1, hd, hr, hn, ?_,
      hnorm _ _ _ _ hn, ?_, hread, hnorm⟩
    · rcases hk with ⟨h7, rfl⟩ | ⟨h7, rfl⟩
      · simp [h7, scan_result_arg, Kernel.arg]
      · have hne : cfg.cumulation ≠ "hs" := by rw [h7]; decide
        simp [hne, scan_result_arg, Kernel.arg]
    · rcases hk with ⟨h7, rfl⟩ | ⟨h7, rfl⟩
      · exact Or.inl ⟨h7, by simp [h7], rfl⟩
      · have hne : cfg.cumulation ≠ "hs" := by rw [h7]; decide
        exact Or.inr ⟨h7, by simp [hne], rfl⟩

/-- Witness of `scan_result_buffer`: the token `2` selects Hillis-Steele. -/
theorem scan_result_buffer_witness :
    (colour_config.cumulation = "bl" ∨ colour_config.cumulation = "hs") ∧
    (stages (run sample_world colour_config).trace).count Stage.scan = 1 ∧
    ∃ result k g l c bytes k2 g2 l2 c2 k1 g1 l1 c1,
      (360, Event.kernel_dispatched k1 g1 l1 c1) ∈ (run sample_world colour_config).trace ∧
      k1.arg 1 = some (Arg.buffer 3) ∧
      (395, Event.kernel_dispatched k g l c) ∈ (run sample_world colour_config).trace ∧
      (396, Event.buffer_read result bytes) ∈ (run sample_world colour_config).trace ∧
      (430, Event.kernel_dispatched k2 g2 l2 c2) ∈ (run sample_world colour_config).trace ∧
      k.arg (scan_result_arg k.name) = some (Arg.buffer result) ∧
      k2.arg 0 = some (Arg.buffer result) ∧
      ((colour_config.cumulation = "hs" ∧ result = 4 ∧
          k = ⟨"hillis_steele_scan", [(0, Arg.buffer 3), (1, Arg.buffer 4)]⟩) ∨
        (colour_config.cumulation = "bl" ∧ result = 3 ∧
          k = ⟨"blelloch_scan", [(0, Arg.buffer 3)]⟩)) ∧
      (∀ obj n, (396, Event.buffer_read obj n) ∈ (run sample_world colour_config).trace →
        obj = result) ∧
      (∀ k3 g3 l3 c3,
        (430, Event.kernel_dispatched k3 g3 l3 c3) ∈ (run sample_world colour_config).trace →
          k3.arg 0 = some (Arg.buffer result)) :=
  scan_result_buffer sample_world colour_config ["x", "2"] [] (by decide) (by decide)
/-! ## Single-precision rounding -/

theorem log2_loop_spec :
    ∀ (fuel n : Nat), 1 ≤ n → n ≤ fuel →
      2 ^ log2_loop fuel n ≤ n ∧ n < 2 ^ (log2_loop fuel n + 1) := by
  intro fuel
  induction fuel with
  | zero => intro n h1 h2; omega
  | succ fuel ih =>
    intro n h1 h2
    unfold log2_loop
    by_cases h : n < 2
    · simp only [h, if_true]
      constructor
      · simpa using h1
      · simpa using h
    · simp only [h, if_false]
      have h3 : 1 ≤ n / 2 := by omega
      have h4 : n / 2 ≤ fuel := by omega
      obtain ⟨h5, h6⟩ := ih (n / 2) h3 h4
      rw [pow_succ] at h6 ⊢
      rw [pow_succ]
      constructor <;> omega

theorem int_log2_spec (n : Nat) (h : 1 ≤ n) :
    2 ^ int_log2 n ≤ n ∧ n < 2 ^ (int_log2 n + 1) :=
  log2_loop_spec n n h (le_refl n)

theorem frac_exponent_spec (n d : Nat) (hn : 0 < n) (hd : 0 < d) :
    (2 : ℚ) ^ frac_exponent n d ≤ (n : ℚ) / d ∧
      (n : ℚ) / d < (2 : ℚ) ^ (frac_exponent n d + 1) := by
  obtain ⟨ha1, ha2⟩ := int_log2_spec n hn
  obtain ⟨hb1, hb2⟩ := int_log2_spec d hd
  have hdq : (0 : ℚ) < d := by exact_mod_cast hd
  have h2b : (0 : ℚ) < 2 ^ int_log2 d := by positivity
  unfold frac_exponent
  simp only []
  by_cases hc : d * 2 ^ int_log2 n ≤ n * 2 ^ int_log2 d
  · simp only [hc, if_true]
    constructor
    · rw [zpow_sub₀ (by norm_num : (2 : ℚ) ≠ 0), zpow_natCast, zpow_natCast,
        div_le_div_iff₀ h2b hdq]
      have : ((d * 2 ^ int_log2 n : Nat) : ℚ) ≤ ((n * 2 ^ int_log2 d : Nat) : ℚ) := by
        exact_mod_cast hc
      push_cast at this
      linarith
    · have he : ((int_log2 n : Int) - int_log2 d + 1) = ((int_log2 n + 1 : Nat) : Int) - int_log2 d := by
        push_cast; ring
      rw [he, zpow_sub₀ (by norm_num : (2 : ℚ) ≠ 0), zpow_natCast, zpow_natCast,
        div_lt_div_iff₀ hdq h2b]
      have h1 : ((n * 2 ^ int_log2 d : Nat) : ℚ) < ((2 ^ (int_log2 n + 1) * d : Nat) : ℚ) := by
        have : n * 2 ^ int_log2 d < 2 ^ (int_log2 n + 1) * d :=
          calc n * 2 ^ int_log2 d < 2 ^ (int_log2 n + 1) * 2 ^ int_log2 d :=
                Nat.mul_lt_mul_of_pos_right ha2 (by positivity)
            _ ≤ 2 ^ (int_log2 n + 1) * d := Nat.mul_le_mul_left _ hb1
        exact_mod_cast this
      push_cast at h1
      linarith
  · simp only [hc, if_false]
    have hc2 : n * 2 ^ int_log2 d < d * 2 ^ int_log2 n := Nat.lt_of_not_le hc
    constructor
    · have he : ((int_log2 n : Int) - int_log2 d - 1) = (int_log2 n : Int) - ((int_log2 d + 1 : Nat) : Int) := by
        push_cast; ring
      rw [he, zpow_sub₀ (by norm_num : (2 : ℚ) ≠ 0), zpow_natCast, zpow_natCast,
        div_le_div_iff₀ (by positivity) hdq]
      have h1 : ((2 ^ int_log2 n * d : Nat) : ℚ) ≤ ((n * 2 ^ (int_log2 d + 1) : Nat) : ℚ) := by
        have : 2 ^ int_log2 n * d ≤ n * 2 ^ (int_log2 d + 1) :=
          calc 2 ^ int_log2 n * d ≤ n * d := Nat.mul_le_mul_right _ ha1
            _ ≤ n * 2 ^ (int_log2 d + 1) := Nat.mul_le_mul_left _ hb2.le
        exact_mod_cast this
      push_cast at h1
      linarith
    · have he : ((int_log2 n : Int) - int_log2 d - 1 + 1) = (int_log2 n : Int) - int_log2 d := by
        ring
      rw [he, zpow_sub₀ (by norm_num : (2 : ℚ) ≠ 0), zpow_natCast, zpow_natCast,
        div_lt_div_iff₀ hdq h2b]
      have : ((n * 2 ^ int_log2 d : Nat) : ℚ) < ((d * 2 ^ int_log2 n : Nat) : ℚ) := by
        exact_mod_cast hc2
      push_cast at this
      linarith

/-- Rounding a quotient of naturals to the nearest integer, as `round_f32` does,
moves it by at most one half. -/
theorem round_quotient_error (num den : Nat) (hden : 0 < den) :
    |(((if den < 2 * (num % den) ∨ (2 * (num % den) = den ∧ num / den % 2 = 1)
        then num / den + 1 else num / den : Nat) : ℚ)) - (num : ℚ) / den| ≤ 1 / 2 := by
  have hdq : (0 : ℚ) < den := by exact_mod_cast hden
  have hsplit : (num : ℚ) = (den : ℚ) * (num / den : Nat) + (num % den : Nat) := by
    exact_mod_cast (Nat.div_add_mod num den).symm
  have hr : num % den < den := Nat.mod_lt _ hden
  have hrq : ((num % den : Nat) : ℚ) < den := by exact_mod_cast hr
  have hr0 : (0 : ℚ) ≤ ((num % den : Nat) : ℚ) := by positivity
  have hquot : (num : ℚ) / den = (num / den : Nat) + ((num % den : Nat) : ℚ) / den := by
    rw [div_eq_iff hdq.ne', add_mul, div_mul_cancel₀ _ hdq.ne']
    linarith
  by_cases hup : den < 2 * (num % den) ∨ (2 * (num % den) = den ∧ num / den % 2 = 1)
  · simp only [hup, if_true]
    have h2 : (den : ℚ) ≤ 2 * ((num % den : Nat) : ℚ) := by
      rcases hup with h | ⟨h, -⟩
      · exact_mod_cast h.le
      · exact_mod_cast h.ge
    have h3 : (1 : ℚ) / 2 ≤ ((num % den : Nat) : ℚ) / den := by
      rw [div_le_div_iff₀ (by norm_num) hdq]
      linarith
    have h4 : ((num % den : Nat) : ℚ) / den < 1 := by
      rw [div_lt_one hdq]
      exact hrq
    rw [hquot, abs_le]
    push_cast
    constructor <;> linarith
  · simp only [hup, if_false]
    have h2 : 2 * (num % den) ≤ den := by
      by_contra hcon
      exact hup (Or.inl (by omega))
    have h2q : 2 * ((num % den : Nat) : ℚ) ≤ den := by exact_mod_cast h2
    have h3 : ((num % den : Nat) : ℚ) / den ≤ 1 / 2 := by
      rw [div_le_div_iff₀ hdq (by norm_num)]
      linarith
    have h4 : (0 : ℚ) ≤ ((num % den : Nat) : ℚ) / den := by positivity
    rw [hquot, abs_le]
    constructor <;> linarith

/-- Rounding to single precision: a fraction in the normal range is moved by at
most the relative error `2 ^ (-24)`. -/
theorem round_f32_error (n d : Nat) (hn : 0 < n) (hd : 0 < d)
    (hlo : (1 : ℚ) / 2 ^ 126 ≤ (n : ℚ) / d) (hhi : (n : ℚ) / d < 2 ^ 100) :
    ∃ x, round_f32 n d = some x ∧ |x.toRat - (n : ℚ) / d| ≤ (n : ℚ) / d / 2 ^ 24 := by
  obtain ⟨hE1, hE2⟩ := frac_exponent_spec n d hn hd
  have hdq : (0 : ℚ) < d := by exact_mod_cast hd
  have hnq : (0 : ℚ) < n := by exact_mod_cast hn
  have h2 : (2 : ℚ) ≠ 0 := by norm_num
  -- the exponent lies between -126 and 99
  have hElo : -126 ≤ frac_exponent n d := by
    by_contra hcon
    have h1 : frac_exponent n d + 1 ≤ -126 := by omega
    have h3 : (2 : ℚ) ^ (frac_exponent n d + 1) ≤ 2 ^ (-126 : Int) :=
      zpow_le_zpow_right₀ (by norm_num) h1
    have h4 : (2 : ℚ) ^ (-126 : Int) = 1 / 2 ^ 126 := by
      rw [zpow_neg, one_div]; norm_cast
    rw [h4] at h3
    exact absurd (lt_of_lt_of_le hE2 h3) (not_lt.mpr hlo)
  have hEhi : frac_exponent n d < 100 := by
    by_contra hcon
    have h1 : (100 : Int) ≤ frac_exponent n d := by omega
    have h3 : (2 : ℚ) ^ (100 : Int) ≤ 2 ^ frac_exponent n d :=
      zpow_le_zpow_right₀ (by norm_num) h1
    have h4 : (2 : ℚ) ^ (100 : Int) = 2 ^ 100 := by norm_cast
    rw [h4] at h3
    exact absurd (lt_of_le_of_lt (le_trans h3 hE1) hhi) (lt_irrefl _)
  have hmax : max (frac_exponent n d) (-126) = frac_exponent n d := max_eq_left hElo
  have hkey : 0 < (if 0 ≤ frac_exponent n d - 23 then d * 2 ^ (frac_exponent n d - 23).toNat
        else d) ∧
      (((if 0 ≤ frac_exponent n d - 23 then n
          else n * 2 ^ (-(frac_exponent n d - 23)).toNat : Nat) : ℚ)) /
        ((if 0 ≤ frac_exponent n d - 23 then d * 2 ^ (frac_exponent n d - 23).toNat
          else d : Nat) : ℚ) = (n : ℚ) / d / 2 ^ (frac_exponent n d - 23) := by
    by_cases h0 : 0 ≤ frac_exponent n d - 23
    · simp only [h0, if_true]
      refine ⟨by positivity, ?_⟩
      have : (2 : ℚ) ^ (frac_exponent n d - 23) = 2 ^ (frac_exponent n d - 23).toNat := by
        rw [← zpow_natCast, Int.toNat_of_nonneg h0]
      rw [this]
      push_cast
      rw [div_div]
    · simp only [h0, if_false]
      refine ⟨hd, ?_⟩
      have hneg : 0 ≤ -(frac_exponent n d - 23) := by omega
      have : (2 : ℚ) ^ (frac_exponent n d - 23) = (2 ^ (-(frac_exponent n d - 23)).toNat)⁻¹ := by
        rw [← zpow_natCast, Int.toNat_of_nonneg hneg, zpow_neg, inv_inv]
      rw [this]
      push_cast
      field_simp
  have hs104 : ¬ (104 ≤ frac_exponent n d - 23) := by omega
  have hpow : (2 : ℚ) ^ (frac_exponent n d - 23) / 2 ≤ (n : ℚ) / d / 2 ^ 24 := by
    have : (2 : ℚ) ^ (frac_exponent n d - 23) = 2 ^ frac_exponent n d / 2 ^ 23 := by
      rw [zpow_sub₀ h2]; norm_cast
    rw [this, div_div]
    have h24 : (2 : ℚ) ^ 23 * 2 = 2 ^ 24 := by norm_num
    rw [h24]
    exact div_le_div_of_nonneg_right hE1 (by positivity)
  unfold round_f32
  simp only [hd.ne', hn.ne', if_false, hmax, hs104, false_and]
  refine ⟨_, rfl, ?_⟩
  unfold F32.toRat
  simp only []
  revert hkey hpow
  generalize frac_exponent n d - 23 = s
  generalize (if 0 ≤ s then n else n * 2 ^ (-s).toNat) = num
  generalize (if 0 ≤ s then d * 2 ^ s.toNat else d) = den
  intro hkey hpow
  obtain ⟨hden, hq⟩ := hkey
  have hround := round_quotient_error num den hden
  rw [hq] at hround
  have hspos : (0 : ℚ) < 2 ^ s := by positivity
  have hfact : ∀ m : ℚ, m * 2 ^ s - (n : ℚ) / d = (m - (n : ℚ) / d / 2 ^ s) * 2 ^ s := by
    intro m
    field_simp
    ring
  rw [hfact, abs_mul, abs_of_pos hspos]
  calc |_ - (n : ℚ) / d / 2 ^ s| * 2 ^ s ≤ 1 / 2 * 2 ^ s :=
        mul_le_mul_of_nonneg_right hround hspos.le
    _ = 2 ^ s / 2 := by ring
    _ ≤ (n : ℚ) / d / 2 ^ 24 := hpow

theorem F32.den_pos (x : F32) : 0 < x.den := by
  unfold F32.den
  split <;> positivity

theorem F32.num_div_den (x : F32) : (x.num : ℚ) / x.den = x.toRat := by
  unfold F32.num F32.den F32.toRat
  by_cases h0 : 0 ≤ x.expo
  · simp only [h0, if_true]
    have : (2 : ℚ) ^ x.expo = 2 ^ x.expo.toNat := by
      rw [← zpow_natCast, Int.toNat_of_nonneg h0]
    rw [this]
    push_cast
    simp
  · simp only [h0, if_false]
    have hneg : 0 ≤ -x.expo := by omega
    have : (2 : ℚ) ^ x.expo = (2 ^ (-x.expo).toNat)⁻¹ := by
      rw [← zpow_natCast, Int.toNat_of_nonneg hneg, zpow_neg, inv_inv]
    rw [this]
    push_cast
    rw [div_eq_mul_inv]

theorem F32.num_pos (x : F32) (h : 0 < x.toRat) : 0 < x.num := by
  have hd := F32.den_pos x
  have hdq : (0 : ℚ) < x.den := by exact_mod_cast hd
  rw [← F32.num_div_den x] at h
  by_contra hcon
  have h0 : x.num = 0 := by omega
  rw [h0] at h
  simp at h

/-- An integer below `2 ^ 24` converts to `float` without rounding. -/
theorem of_nat_exact (N : Nat) (h0 : 0 < N) (h24 : N < 2 ^ 24) :
    ∃ y, F32.of_nat N = some y ∧ y.toRat = N := by
  obtain ⟨ha1, ha2⟩ := int_log2_spec N h0
  have ha : int_log2 N < 24 := by
    by_contra hcon
    have : 2 ^ 24 ≤ 2 ^ int_log2 N := Nat.pow_le_pow_right (by norm_num) (by omega)
    omega
  have hE : frac_exponent N 1 = int_log2 N := by
    unfold frac_exponent
    have h1 : int_log2 1 = 0 := by decide
    simp only [h1, pow_zero, mul_one, one_mul]
    simp [ha1]
  unfold F32.of_nat round_f32
  have hmax : max (int_log2 N : Int) (-126) = int_log2 N := max_eq_left (by omega)
  have hs104 : ¬ (104 ≤ (int_log2 N : Int) - 23) := by omega
  simp only [hE, hmax, hs104, false_and, if_false, h0.ne', one_ne_zero]
  refine ⟨_, rfl, ?_⟩
  unfold F32.toRat
  simp only []
  by_cases hs : 0 ≤ (int_log2 N : Int) - 23
  · have h23 : int_log2 N = 23 := by omega
    simp [h23, Nat.mod_one]
  · simp only [hs, if_false, Nat.mod_one, Nat.div_one, mul_zero]
    have hneg : 0 ≤ -((int_log2 N : Int) - 23) := by omega
    have hpow : (2 : ℚ) ^ ((int_log2 N : Int) - 23) =
        (2 ^ (-((int_log2 N : Int) - 23)).toNat)⁻¹ := by
      rw [← zpow_natCast, Int.toNat_of_nonneg hneg, zpow_neg, inv_inv]
    rw [hpow]
    simp

theorem of_nat_255 : F32.of_nat 255 = some ⟨16711680, -16⟩ := by decide

theorem of_nat_3 : F32.of_nat 3 = some ⟨12582912, -22⟩ := by decide

theorem power_of_two_value (j : Nat) :
    (⟨16711680, -16 - (j : Int)⟩ : F32).toRat = 255 / ((2 ^ j : Nat) : ℚ) ∧
    (⟨12533760, -14 - (j : Int)⟩ : F32).toRat = 3 * (255 / ((2 ^ j : Nat) : ℚ)) := by
  unfold F32.toRat
  simp only []
  have h2 : (2 : ℚ) ≠ 0 := by norm_num
  have e1 : (-16 - (j : Int)) = -((16 + j : Nat) : Int) := by push_cast; ring
  have e2 : (-14 - (j : Int)) = -((14 + j : Nat) : Int) := by push_cast; ring
  rw [e1, e2, zpow_neg, zpow_neg, zpow_natCast, zpow_natCast, pow_add, pow_add]
  push_cast
  constructor
  · field_simp; ring
  · field_simp; ring

/-- How `round_f32` rounds a quotient of naturals: down when the remainder is at
most a half, up when it is at least a half, and at exactly a half to the even
neighbour. -/
theorem round_quotient_cases (num den : Nat) (hden : 0 < den) :
    ((num / den : Nat) : ℚ) ≤ (num : ℚ) / den ∧ (num : ℚ) / den < ((num / den : Nat) : ℚ) + 1 ∧
    (((if den < 2 * (num % den) ∨ (2 * (num % den) = den ∧ num / den % 2 = 1)
        then num / den + 1 else num / den) = num / den ∧
        (num : ℚ) / den - ((num / den : Nat) : ℚ) ≤ 1 / 2 ∧
        ((num : ℚ) / den - ((num / den : Nat) : ℚ) = 1 / 2 → num / den % 2 = 0)) ∨
      ((if den < 2 * (num % den) ∨ (2 * (num % den) = den ∧ num / den % 2 = 1)
        then num / den + 1 else num / den) = num / den + 1 ∧
        1 / 2 ≤ (num : ℚ) / den - ((num / den : Nat) : ℚ) ∧
        ((num : ℚ) / den - ((num / den : Nat) : ℚ) = 1 / 2 → num / den % 2 = 1))) := by
  have hdq : (0 : ℚ) < den := by exact_mod_cast hden
  have hsplit : (num : ℚ) = (den : ℚ) * (num / den : Nat) + (num % den : Nat) := by
    exact_mod_cast (Nat.div_add_mod num den).symm
  have hr : num % den < den := Nat.mod_lt _ hden
  have hrq : ((num % den : Nat) : ℚ) < den := by exact_mod_cast hr
  have hr0 : (0 : ℚ) ≤ ((num % den : Nat) : ℚ) := by positivity
  have hquot : (num : ℚ) / den = (num / den : Nat) + ((num % den : Nat) : ℚ) / den := by
    rw [div_eq_iff hdq.ne', add_mul, div_mul_cancel₀ _ hdq.ne']
    linarith
  have hfrac0 : (0 : ℚ) ≤ ((num % den : Nat) : ℚ) / den := by positivity
  have hfrac1 : ((num % den : Nat) : ℚ) / den < 1 := by
    rw [div_lt_one hdq]; exact hrq
  have hhalf : ((num % den : Nat) : ℚ) / den = 1 / 2 ↔ 2 * (num % den) = den := by
    rw [div_eq_iff hdq.ne']
    constructor
    · intro h
      have : (2 : ℚ) * ((num % den : Nat) : ℚ) = den := by linarith
      exact_mod_cast this
    · intro h
      have : (2 : ℚ) * ((num % den : Nat) : ℚ) = den := by exact_mod_cast h
      linarith
  refine ⟨by rw [hquot]; linarith, by rw [hquot]; linarith, ?_⟩
  have hdiff : (num : ℚ) / den - ((num / den : Nat) : ℚ) = ((num % den : Nat) : ℚ) / den := by
    rw [hquot]; ring
  rw [hdiff]
  by_cases hup : den < 2 * (num % den) ∨ (2 * (num % den) = den ∧ num / den % 2 = 1)
  · right
    rw [if_pos hup]
    refine ⟨rfl, ?_, ?_⟩
    · rw [div_le_div_iff₀ (by norm_num) hdq]
      have h2 : (den : ℚ) ≤ 2 * ((num % den : Nat) : ℚ) := by
        rcases hup with h | ⟨h, -⟩
        · exact_mod_cast h.le
        · exact_mod_cast h.ge
      linarith
    · intro h
      have h2 := hhalf.mp h
      rcases hup with h3 | ⟨-, h3⟩
      · omega
      · exact h3
  · left
    rw [if_neg hup]
    have h2 : 2 * (num % den) ≤ den := by
      by_contra hcon
      exact hup (Or.inl (by omega))
    refine ⟨rfl, ?_, ?_⟩
    · rw [div_le_div_iff₀ hdq (by norm_num)]
      have h2q : 2 * ((num % den : Nat) : ℚ) ≤ den := by exact_mod_cast h2
      linarith
    · intro h
      have h3 := hhalf.mp h
      by_contra hodd
      exact hup (Or.inr ⟨h3, by omega⟩)

/-- What `round_f32` returns in the normal range: with `E` the exponent of the
fraction and `t` the fraction in units of `2 ^ (E - 23)`, the significand is
one of the two integers around `t`, between `2 ^ 23` and `2 ^ 24`, chosen to
nearest with ties to even. -/
theorem round_f32_normal (n d : Nat) (hn : 0 < n) (hd : 0 < d)
    (hlo : (1 : ℚ) / 2 ^ 126 ≤ (n : ℚ) / d) (hhi : (n : ℚ) / d < 2 ^ 100) :
    ∃ m0 m : Nat, round_f32 n d = some ⟨m, frac_exponent n d - 23⟩ ∧
      -126 ≤ frac_exponent n d ∧ frac_exponent n d < 100 ∧
      2 ^ 23 ≤ m0 ∧ m0 < 2 ^ 24 ∧
      (m0 : ℚ) ≤ (n : ℚ) / d / 2 ^ (frac_exponent n d - 23) ∧
      (n : ℚ) / d / 2 ^ (frac_exponent n d - 23) < (m0 : ℚ) + 1 ∧
      ((m = m0 ∧ (n : ℚ) / d / 2 ^ (frac_exponent n d - 23) - m0 ≤ 1 / 2 ∧
          ((n : ℚ) / d / 2 ^ (frac_exponent n d - 23) - m0 = 1 / 2 → m0 % 2 = 0)) ∨
        (m = m0 + 1 ∧ 1 / 2 ≤ (n : ℚ) / d / 2 ^ (frac_exponent n d - 23) - m0 ∧
          ((n : ℚ) / d / 2 ^ (frac_exponent n d - 23) - m0 = 1 / 2 → m0 % 2 = 1))) := by
  obtain ⟨hE1, hE2⟩ := frac_exponent_spec n d hn hd
  have hdq : (0 : ℚ) < d := by exact_mod_cast hd
  have hnq : (0 : ℚ) < n := by exact_mod_cast hn
  have h2 : (2 : ℚ) ≠ 0 := by norm_num
  have hElo : -126 ≤ frac_exponent n d := by
    by_contra hcon
    have h1 : frac_exponent n d + 1 ≤ -126 := by omega
    have h3 : (2 : ℚ) ^ (frac_exponent n d + 1) ≤ 2 ^ (-126 : Int) :=
      zpow_le_zpow_right₀ (by norm_num) h1
    have h4 : (2 : ℚ) ^ (-126 : Int) = 1 / 2 ^ 126 := by
      rw [zpow_neg, one_div]; norm_cast
    rw [h4] at h3
    exact absurd (lt_of_lt_of_le hE2 h3) (not_lt.mpr hlo)
  have hEhi : frac_exponent n d < 100 := by
    by_contra hcon
    have h1 : (100 : Int) ≤ frac_exponent n d := by omega
    have h3 : (2 : ℚ) ^ (100 : Int) ≤ 2 ^ frac_exponent n d :=
      zpow_le_zpow_right₀ (by norm_num) h1
    have h4 : (2 : ℚ) ^ (100 : Int) = 2 ^ 100 := by norm_cast
    rw [h4] at h3
    exact absurd (lt_of_le_of_lt (le_trans h3 hE1) hhi) (lt_irrefl _)
  have hmax : max (frac_exponent n d) (-126) = frac_exponent n d := max_eq_left hElo
  have hkey : 0 < (if 0 ≤ frac_exponent n d - 23 then d * 2 ^ (frac_exponent n d - 23).toNat
        else d) ∧
      (((if 0 ≤ frac_exponent n d - 23 then n
          else n * 2 ^ (-(frac_exponent n d - 23)).toNat : Nat) : ℚ)) /
        ((if 0 ≤ frac_exponent n d - 23 then d * 2 ^ (frac_exponent n d - 23).toNat
          else d : Nat) : ℚ) = (n : ℚ) / d / 2 ^ (frac_exponent n d - 23) := by
    by_cases h0 : 0 ≤ frac_exponent n d - 23
    · simp only [h0, if_true]
      refine ⟨by positivity, ?_⟩
      have : (2 : ℚ) ^ (frac_exponent n d - 23) = 2 ^ (frac_exponent n d - 23).toNat := by
        rw [← zpow_natCast, Int.toNat_of_nonneg h0]
      rw [this]
      push_cast
      rw [div_div]
    · simp only [h0, if_false]
      refine ⟨hd, ?_⟩
      have hneg : 0 ≤ -(frac_exponent n d - 23) := by omega
      have : (2 : ℚ) ^ (frac_exponent n d - 23) = (2 ^ (-(frac_exponent n d - 23)).toNat)⁻¹ := by
        rw [← zpow_natCast, Int.toNat_of_nonneg hneg, zpow_neg, inv_inv]
      rw [this]
      push_cast
      field_simp
  have hs104 : ¬ (104 ≤ frac_exponent n d - 23) := by omega
  have hpow : (2 : ℚ) ^ (frac_exponent n d - 23) = 2 ^ frac_exponent n d / 2 ^ 23 := by
    rw [zpow_sub₀ h2]; norm_cast
  have hPpos : (0 : ℚ) < 2 ^ frac_exponent n d := by positivity
  have hupos : (0 : ℚ) < 2 ^ (frac_exponent n d - 23) := by positivity
  have ht1 : (2 : ℚ) ^ 23 ≤ (n : ℚ) / d / 2 ^ (frac_exponent n d - 23) := by
    rw [le_div_iff₀ hupos, hpow, mul_div_cancel₀ _ (by positivity)]
    exact hE1
  have ht2 : (n : ℚ) / d / 2 ^ (frac_exponent n d - 23) < 2 ^ 24 := by
    rw [div_lt_iff₀ hupos, hpow]
    have : (2 : ℚ) ^ (frac_exponent n d + 1) = 2 ^ frac_exponent n d * 2 := by
      rw [zpow_add_one₀ h2]
    rw [this] at hE2
    have h3 : (2 : ℚ) ^ 24 * (2 ^ frac_exponent n d / 2 ^ 23) = 2 ^ frac_exponent n d * 2 := by
      field_simp
      ring
    rw [h3]
    exact hE2
  unfold round_f32
  simp only [hd.ne', hn.ne', if_false, hmax, hs104, false_and]
  revert hkey
  generalize (if 0 ≤ frac_exponent n d - 23 then n
    else n * 2 ^ (-(frac_exponent n d - 23)).toNat) = num
  generalize (if 0 ≤ frac_exponent n d - 23 then d * 2 ^ (frac_exponent n d - 23).toNat
    else d) = den
  intro hkey
  obtain ⟨hden, hq⟩ := hkey
  obtain ⟨hc1, hc2, hc3⟩ := round_quotient_cases num den hden
  rw [hq] at hc1 hc2 hc3
  have hm23 : 2 ^ 23 ≤ num / den := by
    have : ((2 ^ 23 : Nat) : ℚ) < ((num / den + 1 : Nat) : ℚ) := by
      push_cast
      linarith
    have := Nat.cast_lt.mp this
    omega
  have hm24 : num / den < 2 ^ 24 := by
    have : ((num / den : Nat) : ℚ) < ((2 ^ 24 : Nat) : ℚ) := by
      push_cast
      linarith
    exact Nat.cast_lt.mp this
  exact ⟨num / den, _, rfl, hElo, hEhi, hm23, hm24, hc1, hc2, hc3⟩

/-- No binary32 value lies strictly between two neighbouring multiples of a unit
`2 ^ s` whose significands are at least `2 ^ 23`. -/
theorem binary32_off_grid (y : ℚ) (hy : is_binary32 y) (s : Int) (m0 : Nat)
    (h23 : 2 ^ 23 ≤ m0) :
    y / 2 ^ s ≤ (m0 : ℚ) ∨ (m0 : ℚ) + 1 ≤ y / 2 ^ s := by
  obtain ⟨k, e, hk, -, -, hval⟩ := hy
  have h2 : (2 : ℚ) ≠ 0 := by norm_num
  have hspos : (0 : ℚ) < 2 ^ s := by positivity
  have hepos : (0 : ℚ) < 2 ^ e := by positivity
  have hm0 : (0 : ℚ) ≤ m0 := by positivity
  rcases hval with hv | hv
  · by_cases hes : s ≤ e
    · have hpow : (2 : ℚ) ^ e / 2 ^ s = ((2 ^ (e - s).toNat : Nat) : ℚ) := by
        rw [← zpow_sub₀ h2]
        push_cast
        rw [← zpow_natCast, Int.toNat_of_nonneg (by omega)]
      have hY : y / 2 ^ s = ((k * 2 ^ (e - s).toNat : Nat) : ℚ) := by
        rw [hv, mul_div_assoc, hpow]
        push_cast
        ring
      rw [hY]
      rcases Nat.lt_or_ge m0 (k * 2 ^ (e - s).toNat) with h | h
      · right
        have : ((m0 + 1 : Nat) : ℚ) ≤ ((k * 2 ^ (e - s).toNat : Nat) : ℚ) :=
          Nat.cast_le.mpr h
        push_cast at this ⊢
        exact this
      · left
        exact Nat.cast_le.mpr h
    · left
      have hlt : e - s ≤ -1 := by omega
      have hpow : (2 : ℚ) ^ e / 2 ^ s ≤ 1 / 2 := by
        rw [← zpow_sub₀ h2]
        calc (2 : ℚ) ^ (e - s) ≤ 2 ^ (-1 : Int) := zpow_le_zpow_right₀ (by norm_num) hlt
          _ = 1 / 2 := by norm_num
      have hkq : (k : ℚ) < 2 ^ 24 := by exact_mod_cast hk
      have hk0 : (0 : ℚ) ≤ k := by positivity
      have h23q : (2 : ℚ) ^ 23 ≤ m0 := by exact_mod_cast h23
      rw [hv, mul_div_assoc]
      have h1 : (k : ℚ) * (2 ^ e / 2 ^ s) ≤ k * (1 / 2) :=
        mul_le_mul_of_nonneg_left hpow hk0
      have h3 : (k : ℚ) * (1 / 2) ≤ 2 ^ 23 := by
        have : (2 : ℚ) ^ 24 = 2 * 2 ^ 23 := by norm_num
        linarith
      linarith
  · left
    have : y / 2 ^ s ≤ 0 := by
      rw [hv, neg_div]
      have : (0 : ℚ) ≤ (k : ℚ) * 2 ^ e / 2 ^ s := by positivity
      linarith
    linarith

/-- The neighbour of `t` that `round_f32` picks on the grid of unit `2 ^ s` is
the binary32 value nearest to the fraction, ties to even. -/
theorem rounds_to_of_grid (q : ℚ) (s : Int) (m0 m : Nat) (hs1 : -149 ≤ s) (hs2 : s ≤ 76)
    (h23 : 2 ^ 23 ≤ m0) (h24 : m0 < 2 ^ 24)
    (ht1 : (m0 : ℚ) ≤ q / 2 ^ s) (ht2 : q / 2 ^ s < (m0 : ℚ) + 1)
    (hc : (m = m0 ∧ q / 2 ^ s - m0 ≤ 1 / 2 ∧ (q / 2 ^ s - m0 = 1 / 2 → m0 % 2 = 0)) ∨
      (m = m0 + 1 ∧ 1 / 2 ≤ q / 2 ^ s - m0 ∧ (q / 2 ^ s - m0 = 1 / 2 → m0 % 2 = 1))) :
    rounds_to q ((m : ℚ) * 2 ^ s) := by
  have h2 : (2 : ℚ) ≠ 0 := by norm_num
  have hspos : (0 : ℚ) < 2 ^ s := by positivity
  -- distances in units of `2 ^ s`
  have hdist : ∀ z : ℚ, |z - q| = |z / 2 ^ s - q / 2 ^ s| * 2 ^ s := by
    intro z
    rw [← sub_div, abs_div, abs_of_pos hspos, div_mul_cancel₀ _ hspos.ne']
  have hxs : (m : ℚ) * 2 ^ s / 2 ^ s = m := by
    rw [mul_div_assoc, div_self hspos.ne', mul_one]
  -- the significand `2 ^ 24` is the significand `2 ^ 23` one exponent up
  have htop : ((2 ^ 24 : Nat) : ℚ) * 2 ^ s = ((2 ^ 23 : Nat) : ℚ) * 2 ^ (s + 1) := by
    rw [zpow_add_one₀ h2]
    push_cast
    ring
  have hmle : m = m0 ∨ m = m0 + 1 := by
    rcases hc with ⟨h, -⟩ | ⟨h, -⟩
    · exact Or.inl h
    · exact Or.inr h
  refine ⟨?_, ?_, ?_⟩
  · by_cases hm : m < 2 ^ 24
    · exact ⟨m, s, hm, hs1, by omega, Or.inl rfl⟩
    · have hm24 : m = 2 ^ 24 := by omega
      refine ⟨2 ^ 23, s + 1, by norm_num, by omega, by omega, Or.inl ?_⟩
      rw [hm24]
      exact htop
  · intro y hy
    rw [hdist y, hdist ((m : ℚ) * 2 ^ s), hxs]
    apply mul_le_mul_of_nonneg_right _ hspos.le
    rcases binary32_off_grid y hy s m0 h23 with hY | hY
    · rcases hc with ⟨rfl, h1, -⟩ | ⟨rfl, h1, -⟩
      · rw [abs_le]
        constructor
        · have := neg_abs_le (y / 2 ^ s - q / 2 ^ s)
          have := le_abs_self (q / 2 ^ s - y / 2 ^ s)
          rw [abs_sub_comm] at this
          linarith
        · have := le_abs_self (q / 2 ^ s - y / 2 ^ s)
          rw [abs_sub_comm] at this
          linarith
      · push_cast
        rw [abs_le]
        have := le_abs_self (q / 2 ^ s - y / 2 ^ s)
        rw [abs_sub_comm] at this
        constructor <;> linarith
    · rcases hc with ⟨rfl, h1, -⟩ | ⟨rfl, h1, -⟩
      · rw [abs_le]
        have := le_abs_self (y / 2 ^ s - q / 2 ^ s)
        constructor <;> linarith
      · push_cast
        rw [abs_le]
        have := le_abs_self (y / 2 ^ s - q / 2 ^ s)
        constructor <;> linarith
  · intro y hy hne heq
    rw [hdist y, hdist ((m : ℚ) * 2 ^ s), hxs] at heq
    have heq2 : |y / 2 ^ s - q / 2 ^ s| = |(m : ℚ) - q / 2 ^ s| :=
      mul_right_cancel₀ hspos.ne' heq
    have hYne : y / 2 ^ s ≠ (m : ℚ) := by
      intro hcon
      apply hne
      rw [← hcon, div_mul_cancel₀ _ hspos.ne']
    have hhalf : q / 2 ^ s - m0 = 1 / 2 := by
      rcases binary32_off_grid y hy s m0 h23 with hY | hY
      · rcases hc with ⟨rfl, h1, -⟩ | ⟨rfl, h1, -⟩
        · have hlt : y / 2 ^ s < (m : ℚ) := lt_of_le_of_ne hY hYne
          rw [abs_of_nonpos (by linarith), abs_of_nonpos (by linarith)] at heq2
          linarith
        · push_cast at heq2
          rw [abs_of_nonpos (by linarith), abs_of_nonneg (by linarith)] at heq2
          linarith
      · rcases hc with ⟨rfl, h1, -⟩ | ⟨rfl, h1, -⟩
        · rw [abs_of_nonneg (by linarith), abs_of_nonpos (by linarith)] at heq2
          linarith
        · push_cast at heq2 hYne
          have hlt : (m0 : ℚ) + 1 < y / 2 ^ s := lt_of_le_of_ne hY (Ne.symm hYne)
          rw [abs_of_nonneg (by linarith), abs_of_nonneg (by linarith)] at heq2
          linarith
    rcases hc with ⟨rfl, -, heven⟩ | ⟨rfl, -, hodd⟩
    · exact ⟨m, s, h23, h24, heven hhalf, rfl⟩
    · have ho := hodd hhalf
      by_cases hm : m0 + 1 < 2 ^ 24
      · exact ⟨m0 + 1, s, by omega, hm, by omega, rfl⟩
      · have hm24 : m0 + 1 = 2 ^ 24 := by omega
        refine ⟨2 ^ 23, s + 1, le_refl _, by norm_num, by norm_num, ?_⟩
        rw [hm24]
        exact htop

/-- In the normal range `round_f32` is IEEE-754 rounding to binary32, to
nearest, ties to even. -/
theorem round_f32_rounds (n d : Nat) (hn : 0 < n) (hd : 0 < d)
    (hlo : (1 : ℚ) / 2 ^ 126 ≤ (n : ℚ) / d) (hhi : (n : ℚ) / d < 2 ^ 100) (x : F32)
    (hx : round_f32 n d = some x) : rounds_to ((n : ℚ) / d) x.toRat := by
  obtain ⟨m0, m, hr, hE1, hE2, h23, h24, ht1, ht2, hc⟩ := round_f32_normal n d hn hd hlo hhi
  rw [hr, Option.some.injEq] at hx
  subst hx
  exact rounds_to_of_grid ((n : ℚ) / d) (frac_exponent n d - 23) m0 m (by omega) (by omega)
    h23 h24 ht1 ht2 hc

/-- Conversion of a positive integer to `float` is correctly rounded. -/
theorem of_nat_rounds (N : Nat) (h0 : 0 < N) (hN : N < 2 ^ 64) :
    ∃ x, F32.of_nat N = some x ∧ rounds_to (N : ℚ) x.toRat ∧
      |x.toRat - (N : ℚ)| ≤ (N : ℚ) / 2 ^ 24 := by
  have hN1 : (1 : ℚ) ≤ N := by exact_mod_cast h0
  have hNq : (N : ℚ) < 2 ^ 64 := by exact_mod_cast hN
  have hcast : (N : ℚ) / ((1 : Nat) : ℚ) = N := by simp
  have hlo : (1 : ℚ) / 2 ^ 126 ≤ (N : ℚ) / ((1 : Nat) : ℚ) := by
    rw [hcast]
    have : (1 : ℚ) / 2 ^ 126 ≤ 1 := by norm_num
    linarith
  have hhi : (N : ℚ) / ((1 : Nat) : ℚ) < 2 ^ 100 := by
    rw [hcast]
    have : (2 : ℚ) ^ 64 < 2 ^ 100 := by norm_num
    linarith
  obtain ⟨x, hx, he⟩ := round_f32_error N 1 h0 Nat.one_pos hlo hhi
  have hr := round_f32_rounds N 1 h0 Nat.one_pos hlo hhi x hx
  rw [hcast] at he hr
  exact ⟨x, hx, hr, he⟩

/-- Single-precision division is correctly rounded in the normal range. -/
theorem div_rounds (a b : F32) (ha : 0 < a.toRat) (hb : 0 < b.toRat)
    (hlo : (1 : ℚ) / 2 ^ 126 ≤ a.toRat / b.toRat) (hhi : a.toRat / b.toRat < 2 ^ 100) :
    ∃ x, F32.div a b = some x ∧ rounds_to (a.toRat / b.toRat) x.toRat ∧
      |x.toRat - a.toRat / b.toRat| ≤ a.toRat / b.toRat / 2 ^ 24 := by
  have han := F32.num_pos a ha
  have hbn := F32.num_pos b hb
  have had := F32.den_pos a
  have hbd := F32.den_pos b
  have hfrac : (((a.num * b.den : Nat) : ℚ)) / ((a.den * b.num : Nat) : ℚ) =
      a.toRat / b.toRat := by
    rw [← F32.num_div_den a, ← F32.num_div_den b]
    have h1 : (0 : ℚ) < a.den := by exact_mod_cast had
    have h2 : (0 : ℚ) < b.den := by exact_mod_cast hbd
    have h3 : (0 : ℚ) < b.num := by exact_mod_cast hbn
    push_cast
    field_simp
  obtain ⟨x, hx, he⟩ := round_f32_error (a.num * b.den) (a.den * b.num)
    (by positivity) (by positivity) (by rw [hfrac]; exact hlo) (by rw [hfrac]; exact hhi)
  have hr := round_f32_rounds (a.num * b.den) (a.den * b.num)
    (by positivity) (by positivity) (by rw [hfrac]; exact hlo) (by rw [hfrac]; exact hhi) x hx
  rw [hfrac] at he hr
  exact ⟨x, hx, hr, he⟩

/-- Single-precision multiplication is correctly rounded in the normal range. -/
theorem mul_rounds (a b : F32) (ha : 0 < a.toRat) (hb : 0 < b.toRat)
    (hlo : (1 : ℚ) / 2 ^ 126 ≤ a.toRat * b.toRat) (hhi : a.toRat * b.toRat < 2 ^ 100) :
    ∃ x, F32.mul a b = some x ∧ rounds_to (a.toRat * b.toRat) x.toRat ∧
      |x.toRat - a.toRat * b.toRat| ≤ a.toRat * b.toRat / 2 ^ 24 := by
  have han := F32.num_pos a ha
  have hbn := F32.num_pos b hb
  have had := F32.den_pos a
  have hbd := F32.den_pos b
  have hfrac : (((a.num * b.num : Nat) : ℚ)) / ((a.den * b.den : Nat) : ℚ) =
      a.toRat * b.toRat := by
    rw [← F32.num_div_den a, ← F32.num_div_den b]
    have h1 : (0 : ℚ) < a.den := by exact_mod_cast had
    have h2 : (0 : ℚ) < b.den := by exact_mod_cast hbd
    push_cast
    field_simp
  obtain ⟨x, hx, he⟩ := round_f32_error (a.num * b.num) (a.den * b.den)
    (by positivity) (by positivity) (by rw [hfrac]; exact hlo) (by rw [hfrac]; exact hhi)
  have hr := round_f32_rounds (a.num * b.num) (a.den * b.den)
    (by positivity) (by positivity) (by rw [hfrac]; exact hlo) (by rw [hfrac]; exact hhi) x hx
  rw [hfrac] at he hr
  exact ⟨x, hx, hr, he⟩

theorem toRat_255 : (⟨16711680, -16⟩ : F32).toRat = 255 := by
  unfold F32.toRat
  norm_num

theorem toRat_3 : (⟨12582912, -22⟩ : F32).toRat = 3 := by
  unfold F32.toRat
  norm_num

/-- The scale of main.cpp:285 and 413-418 as a chain of correctly rounded
single-precision operations. -/
theorem normalise_scale_rounds (N : Nat) (h0 : 0 < N) (hN : N < 2 ^ 64) (is_colour : Bool) :
    ∃ image_size scale x : F32,
      normalise_scale N is_colour = some x ∧
      rounds_to (N : ℚ) image_size.toRat ∧
      rounds_to (255 / image_size.toRat) scale.toRat ∧
      (if is_colour = true then rounds_to (3 * scale.toRat) x.toRat else x = scale) ∧
      (N < 2 ^ 24 → image_size.toRat = N) := by
  obtain ⟨sz, hsz, hszr, hsze⟩ := of_nat_rounds N h0 hN
  have hN1 : (1 : ℚ) ≤ N := by exact_mod_cast h0
  have hNq : (N : ℚ) < 2 ^ 64 := by exact_mod_cast hN
  obtain ⟨hs1, hs2⟩ := abs_le.mp hsze
  have hu : (N : ℚ) / 2 ^ 24 ≤ N / 2 :=
    div_le_div_of_nonneg_left (by linarith) (by norm_num) (by norm_num)
  have hszlo : (1 : ℚ) / 2 ≤ sz.toRat := by linarith
  have hszhi : sz.toRat ≤ 2 ^ 65 := by
    have : (2 : ℚ) ^ 65 = 2 ^ 64 + 2 ^ 64 := by norm_num
    linarith
  have hszpos : (0 : ℚ) < sz.toRat := by linarith
  have hq255 : (⟨16711680, -16⟩ : F32).toRat / sz.toRat = 255 / sz.toRat := by
    rw [toRat_255]
  have hqlo : (255 : ℚ) / 2 ^ 65 ≤ 255 / sz.toRat :=
    div_le_div_of_nonneg_left (by norm_num) hszpos hszhi
  have hqhi : 255 / sz.toRat ≤ 510 := by
    rw [div_le_iff₀ hszpos]
    linarith
  obtain ⟨sc, hsc, hscr, hsce⟩ := div_rounds ⟨16711680, -16⟩ sz
    (by rw [toRat_255]; norm_num) hszpos
    (by rw [hq255]; exact le_trans (by norm_num) hqlo)
    (by rw [hq255]; exact lt_of_le_of_lt hqhi (by norm_num))
  rw [hq255] at hscr hsce
  have hgrey : scale_of_size (F32.of_nat N) = some sc := by
    simp only [scale_of_size, hsz, of_nat_255, Option.bind_some, Option.some_bind]
    exact hsc
  have hexact : N < 2 ^ 24 → sz.toRat = N := by
    intro h24
    obtain ⟨y, hy, hyN⟩ := of_nat_exact N h0 h24
    rw [hsz, Option.some.injEq] at hy
    rw [hy]
    exact hyN
  cases is_colour with
  | false =>
    exact ⟨sz, sc, sc, by simpa [normalise_scale] using hgrey, hszr, hscr, by simp, hexact⟩
  | true =>
    obtain ⟨hc1, hc2⟩ := abs_le.mp hsce
    have hqpos : (0 : ℚ) < 255 / sz.toRat := by positivity
    have hu2 : 255 / sz.toRat / 2 ^ 24 ≤ 255 / sz.toRat / 2 :=
      div_le_div_of_nonneg_left hqpos.le (by norm_num) (by norm_num)
    have hsclo : 255 / sz.toRat / 2 ≤ sc.toRat := by linarith
    have hschi : sc.toRat ≤ 255 / sz.toRat + 255 / sz.toRat / 2 := by linarith
    have hscpos : (0 : ℚ) < sc.toRat := by linarith
    have hq3 : sc.toRat * (⟨12582912, -22⟩ : F32).toRat = 3 * sc.toRat := by
      rw [toRat_3]; ring
    obtain ⟨x, hx, hxr, -⟩ := mul_rounds sc ⟨12582912, -22⟩ hscpos
      (by rw [toRat_3]; norm_num)
      (by
        rw [hq3]
        have h1 : (1 : ℚ) / 2 ^ 126 ≤ 3 * (255 / 2 ^ 65 / 2) := by norm_num
        linarith)
      (by
        rw [hq3]
        have h1 : 3 * ((510 : ℚ) + 510 / 2) < 2 ^ 100 := by norm_num
        linarith)
    rw [hq3] at hxr
    refine ⟨sz, sc, x, ?_, hszr, hscr, by simpa using hxr, hexact⟩
    simp only [normalise_scale, if_true, hgrey, scale_times_three, of_nat_3,
      Option.bind_some, Option.some_bind]
    exact hx

set_option maxRecDepth 100000 in
/-- For a power of two below `2 ^ 64` both scales are computed without rounding. -/
theorem power_of_two_scale64 (j : Nat) (hj : j < 64) :
    normalise_scale (2 ^ j) false = some ⟨16711680, -16 - (j : Int)⟩ ∧
    normalise_scale (2 ^ j) true = some ⟨12533760, -14 - (j : Int)⟩ := by
  interval_cases j <;> exact ⟨by decide, by decide⟩

/-- C3 fails as stated: for a grey image of 7 samples the scale passed to the
normalise kernel is the single-precision value `9549531 * 2 ^ (-18)`, which is
not the rational `255 / 7`. -/
theorem scale_seven_not_exact :
    normalise_scale 7 false = some ⟨9549531, -18⟩ ∧
    (430, Event.kernel_dispatched
      ⟨"normalise_histogram",
        [(0, Arg.buffer 3), (1, Arg.buffer 5), (2, Arg.float (some ⟨9549531, -18⟩))]⟩
      8 8 [(0, []), (1, [])]) ∈ (run seven_world sample_config).trace ∧
    (⟨9549531, -18⟩ : F32).toRat ≠ spec_scale 7 false := by
  refine ⟨by decide, by decide, ?_⟩
  unfold F32.toRat spec_scale
  norm_num

/-- C3 as amended: for an image of `N > 0` samples (`N` below `2 ^ 64`, the
range of the 64-bit `img_in.size()`), the scale `main` passes to the normalise
kernel is computed in single precision, every operation rounded to nearest,
ties to even: `image_size` is `N` rounded to binary32 (`N` itself below
`2 ^ 24`), the scale of a grey image is `255 / image_size` rounded to binary32,
and the scale of a colour image is 3 times that value, rounded to binary32
again.  It is the exact rational `255 / N`, or `3 * (255 / N)` for a colour
image, when `N` is a power of two, and `31.875` for a grey image of 8 samples. -/
theorem scale_single_precision (w : World) (cfg : Config) (line : Nat) (k : Kernel)
    (g l : Nat) (c : List (Nat × List Nat))
    (h : (line, Event.kernel_dispatched k g l c) ∈ (run w cfg).trace)
    (hk : k.name = "normalise_histogram")
    (h0 : 0 < (w.image cfg.img_path).length)
    (h64 : (w.image cfg.img_path).length < 2 ^ 64) :
    ∃ image_size scale x : F32,
      k.arg 2 = some (Arg.float (some x)) ∧
      rounds_to ((w.image cfg.img_path).length : ℚ) image_size.toRat ∧
      rounds_to (255 / image_size.toRat) scale.toRat ∧
      (if cfg.is_colour = true then rounds_to (3 * scale.toRat) x.toRat else x = scale) ∧
      ((w.image cfg.img_path).length < 2 ^ 24 →
        image_size.toRat = ((w.image cfg.img_path).length : ℚ)) ∧
      ((∃ j, (w.image cfg.img_path).length = 2 ^ j) →
        x.toRat = spec_scale (w.image cfg.img_path).length cfg.is_colour) ∧
      (cfg.is_colour = false → (w.image cfg.img_path).length = 8 → x.toRat = 31.875) := by
  have hok := run_events w cfg _ h
  simp only [event_ok] at hok
  have harg : k.arg 2 = some (Arg.float
      (normalise_scale (w.image cfg.img_path).length cfg.is_colour)) := by
    rcases hok with ⟨-, h2, -⟩ | ⟨-, -, -, h2⟩ | ⟨-, -, -, -, -, -, h2⟩ | ⟨-, h2, -⟩
    · rw [hk] at h2
      split at h2 <;> exact absurd h2 (by decide)
    · rcases h2 with ⟨-, rfl⟩ | ⟨-, rfl⟩ <;> simp at hk
    · exact h2
    · rw [hk] at h2
      simp at h2
  obtain ⟨image_size, scale, x, hx, hr1, hr2, hr3, hr4⟩ :=
    normalise_scale_rounds _ h0 h64 cfg.is_colour
  have hexact : (∃ j, (w.image cfg.img_path).length = 2 ^ j) →
      x.toRat = spec_scale (w.image cfg.img_path).length cfg.is_colour := by
    rintro ⟨j, hj⟩
    have hj64 : j < 64 := by
      by_contra hcon
      have : 2 ^ 64 ≤ 2 ^ j := Nat.pow_le_pow_right (by norm_num) (by omega)
      omega
    obtain ⟨h1, h2⟩ := power_of_two_scale64 j hj64
    rw [hj] at hx ⊢
    cases hcol : cfg.is_colour with
    | false =>
      rw [hcol, h1, Option.some.injEq] at hx
      rw [← hx]
      simpa only [spec_scale, Bool.false_eq_true, if_false] using (power_of_two_value j).1
    | true =>
      rw [hcol, h2, Option.some.injEq] at hx
      rw [← hx]
      simpa only [spec_scale, if_true] using (power_of_two_value j).2
  refine ⟨image_size, scale, x, by rw [harg, hx], hr1, hr2, hr3, hr4, hexact, ?_⟩
  intro hcol h8
  rw [hexact ⟨3, by rw [h8]; norm_num⟩, hcol, h8]
  simp only [spec_scale, Bool.false_eq_true, if_false]
  norm_num

/-- Witness of `scale_single_precision`: the normalise dispatch of a run on a
colour image of 7 samples, where the division and the multiplication round. -/
theorem scale_single_precision_witness :
    ∃ image_size scale x : F32,
      (⟨"normalise_histogram",
        [(0, Arg.buffer 4), (1, Arg.buffer 5),
          (2, Arg.float (some ⟨14324296, -17⟩))]⟩ : Kernel).arg 2 =
        some (Arg.float (some x)) ∧
      rounds_to ((seven_world.image colour_config.img_path).length : ℚ) image_size.toRat ∧
      rounds_to (255 / image_size.toRat) scale.toRat ∧
      (if colour_config.is_colour = true then rounds_to (3 * scale.toRat) x.toRat
        else x = scale) ∧
      ((seven_world.image colour_config.img_path).length < 2 ^ 24 →
        image_size.toRat = ((seven_world.image colour_config.img_path).length : ℚ)) ∧
      ((∃ j, (seven_world.image colour_config.img_path).length = 2 ^ j) →
        x.toRat = spec_scale (seven_world.image colour_config.img_path).length
          colour_config.is_colour) ∧
      (colour_config.is_colour = false →
        (seven_world.image colour_config.img_path).length = 8 → x.toRat = 31.875) :=
  scale_single_precision seven_world colour_config 430
    ⟨"normalise_histogram",
      [(0, Arg.buffer 4), (1, Arg.buffer 5), (2, Arg.float (some ⟨14324296, -17⟩))]⟩
    8 8 [(0, []), (1, [])] (by decide) (by decide) (by decide) (by decide)

end ImageEnhancer
